import Mathlib

/-!
# Verification of the IndraDB in-memory datastore core

A shallow embedding of the `indradb` graph-database core:

* `src/lib/src/models/queries.rs` — the recursive query algebra
  (`VertexQuery`, `EdgeQuery`, `EdgeDirection`);
* `src/lib/src/memory/datastore.rs` — the in-memory datastore
  (`InternalMemoryDatastore`, `MemoryTransaction`): query evaluation,
  cascading deletion, and the transaction operations;
* `src/bin/src/common/converters.rs` — the Cap'n Proto wire codec
  (`from_*` / `to_*` converters).

Modelling conventions:

* Rust `Uuid` (16 bytes, byte-lexicographic order) is modelled as `Nat`;
  byte-lexicographic order on fixed-width byte strings coincides with
  numeric order.  `Uuid::default()` (the nil UUID) is `0`.
* Rust `String` keys are modelled as `List Char` with Mathlib's
  lexicographic order; UTF-8 byte-lexicographic order coincides with
  codepoint-lexicographic order, which is the `List Char` order.
* `chrono::DateTime<Utc>` is modelled as a (seconds, subsecond-nanoseconds)
  pair ordered lexicographically, which is chronological order when
  `0 ≤ nsec < 10^9`; `.timestamp()` is the `sec` field and
  `.timestamp_nanos()` is `sec * 10^9 + nsec`.
* `BTreeMap` is modelled as a strictly-sorted association list
  (`Pairwise (·.1 < ·.1)`); `get`/`insert`/`remove`/`range`/iteration
  become `mlookup`/`minsert`/`merase`/`mrange`/the list itself.
* `serde_json::Value` is an external opaque payload for every claim
  considered here; it is modelled as an opaque wrapper, and the
  serde_json round-trip (`from_str ∘ to_string = Ok`) — a property of the
  external serde_json crate, not of this repository — makes the wire
  `Text` field carrying `value.to_string()` faithfully modelled by the
  value itself.
* The in-memory evaluators and transaction operations never construct an
  error value (`Result` is always `Ok`), so they are modelled as total
  functions; `Utc::now()` is passed in as an explicit parameter.
-/

namespace IndraDB

/-- Rust `uuid::Uuid`: a 16-byte identifier with byte-lexicographic order,
modelled as a natural number (byte-lexicographic order on fixed-width
strings is numeric order).  `Uuid::default()` is `0`. -/
abbrev Uuid : Type := Nat

/-- A Rust `String` used as a key or a type name, modelled as its list of
characters with lexicographic order. -/
abbrev Str : Type := List Char

/-- `chrono::DateTime<Utc>`: seconds since epoch plus sub-second
nanoseconds.  Chronological order is lexicographic on `(sec, nsec)`. -/
structure DateTimeU where
  sec : Int
  nsec : Nat
deriving DecidableEq

def DateTimeU.toKey (d : DateTimeU) : Lex (Int × Nat) := toLex (d.sec, d.nsec)

theorem dateTimeU_toKey_injective : Function.Injective DateTimeU.toKey := by
  intro a b h
  cases a; cases b
  simpa [DateTimeU.toKey, toLex, Prod.ext_iff, DateTimeU.mk.injEq] using h

instance : LinearOrder DateTimeU := LinearOrder.lift' DateTimeU.toKey dateTimeU_toKey_injective

/-- `chrono`'s `timestamp_nanos()`: nanoseconds since epoch. -/
def DateTimeU.timestampNanos (d : DateTimeU) : Int := d.sec * 1000000000 + (d.nsec : Int)

/-- `models::EdgeKey`: the `(outbound_id, t, inbound_id)` composite edge
identity, ordered lexicographically (the Rust `#[derive(Ord)]` field
order). -/
structure EdgeKey where
  outbound_id : Uuid
  t : Str
  inbound_id : Uuid
deriving DecidableEq

def EdgeKey.toKey (k : EdgeKey) : Lex (Nat × Lex (Str × Nat)) :=
  toLex (k.outbound_id, toLex (k.t, k.inbound_id))

theorem edgeKey_toKey_injective : Function.Injective EdgeKey.toKey := by
  intro a b h
  cases a; cases b
  simpa [EdgeKey.toKey, toLex, Prod.ext_iff, EdgeKey.mk.injEq] using h

instance : LinearOrder EdgeKey := LinearOrder.lift' EdgeKey.toKey edgeKey_toKey_injective

/-- Key of the `vertex_properties` map: the Rust tuple `(Uuid, String)`
with tuple (lexicographic) order. -/
structure VPKey where
  id : Uuid
  name : Str
deriving DecidableEq

def VPKey.toKey (k : VPKey) : Lex (Nat × Str) := toLex (k.id, k.name)

theorem vpKey_toKey_injective : Function.Injective VPKey.toKey := by
  intro a b h
  cases a; cases b
  simpa [VPKey.toKey, toLex, Prod.ext_iff, VPKey.mk.injEq] using h

instance : LinearOrder VPKey := LinearOrder.lift' VPKey.toKey vpKey_toKey_injective

/-- Key of the `edge_properties` map: the Rust tuple `(EdgeKey, String)`
with tuple (lexicographic) order. -/
structure EPKey where
  key : EdgeKey
  name : Str
deriving DecidableEq

def EPKey.toKey (k : EPKey) : Lex (EdgeKey × Str) := toLex (k.key, k.name)

theorem epKey_toKey_injective : Function.Injective EPKey.toKey := by
  intro a b h
  cases a; cases b
  simpa [EPKey.toKey, toLex, Prod.ext_iff, EPKey.mk.injEq] using h

instance : LinearOrder EPKey := LinearOrder.lift' EPKey.toKey epKey_toKey_injective

/-- `serde_json::Value` (an external crate type): an opaque structured
payload.  Its JSON structure is irrelevant to every claim treated here. -/
structure JsonValue where
  payload : Str
deriving DecidableEq

/- Order characterisations, unfolding the `LinearOrder.lift'` instances
down to the component orders. -/

theorem edgeKey_lt_def {a b : EdgeKey} :
    a < b ↔ a.outbound_id < b.outbound_id ∨
      (a.outbound_id = b.outbound_id ∧
        (a.t < b.t ∨ (a.t = b.t ∧ a.inbound_id < b.inbound_id))) := by
  show EdgeKey.toKey a < EdgeKey.toKey b ↔ _
  simp [EdgeKey.toKey, Prod.Lex.lt_iff]

theorem edgeKey_le_def {a b : EdgeKey} :
    a ≤ b ↔ a.outbound_id < b.outbound_id ∨
      (a.outbound_id = b.outbound_id ∧
        (a.t < b.t ∨ (a.t = b.t ∧ a.inbound_id ≤ b.inbound_id))) := by
  show EdgeKey.toKey a ≤ EdgeKey.toKey b ↔ _
  simp [EdgeKey.toKey, Prod.Lex.le_iff, Prod.Lex.lt_iff, Prod.Lex.le_iff]

theorem vpKey_lt_def {a b : VPKey} :
    a < b ↔ a.id < b.id ∨ (a.id = b.id ∧ a.name < b.name) := by
  show VPKey.toKey a < VPKey.toKey b ↔ _
  simp [VPKey.toKey, Prod.Lex.lt_iff]

theorem vpKey_le_def {a b : VPKey} :
    a ≤ b ↔ a.id < b.id ∨ (a.id = b.id ∧ a.name ≤ b.name) := by
  show VPKey.toKey a ≤ VPKey.toKey b ↔ _
  simp [VPKey.toKey, Prod.Lex.le_iff]

theorem epKey_lt_def {a b : EPKey} :
    a < b ↔ a.key < b.key ∨ (a.key = b.key ∧ a.name < b.name) := by
  show EPKey.toKey a < EPKey.toKey b ↔ _
  simp [EPKey.toKey, Prod.Lex.lt_iff]

theorem epKey_le_def {a b : EPKey} :
    a ≤ b ↔ a.key < b.key ∨ (a.key = b.key ∧ a.name ≤ b.name) := by
  show EPKey.toKey a ≤ EPKey.toKey b ↔ _
  simp [EPKey.toKey, Prod.Lex.le_iff]

/-- The empty string is the least `Str` (`""` is the range sentinel used
by the property scans and `Type::default()`). -/
theorem Str.nil_le (s : Str) : ([] : Str) ≤ s := by
  cases s with
  | nil => exact le_refl _
  | cons a l => exact le_of_lt (List.Lex.nil)

/-! ## `BTreeMap`, modelled as a strictly sorted association list -/

section SortedMap

variable {K : Type} {V : Type} [LinearOrder K]

/-- `BTreeMap::get`. -/
def mlookup : List (K × V) → K → Option V
  | [], _ => none
  | (k', v') :: t, k => if k = k' then some v' else mlookup t k

/-- `BTreeMap::insert` (replaces the value if the key is present). -/
def minsert (k : K) (v : V) : List (K × V) → List (K × V)
  | [] => [(k, v)]
  | (k', v') :: t =>
    if k < k' then (k, v) :: (k', v') :: t
    else if k = k' then (k, v) :: t
    else (k', v') :: minsert k v t

/-- `BTreeMap::remove`. -/
def merase (k : K) : List (K × V) → List (K × V)
  | [] => []
  | (k', v') :: t => if k = k' then t else (k', v') :: merase k t

/-- `BTreeMap::range(k..)`: the entries whose key is `≥ k`, in order. -/
def mrange (l : List (K × V)) (k : K) : List (K × V) :=
  l.dropWhile (fun p => p.1 < k)

/-- The `BTreeMap` representation invariant: entries strictly sorted by
key (hence duplicate-free). -/
def msorted (l : List (K × V)) : Prop := l.Pairwise (fun a b => a.1 < b.1)

theorem mlookup_eq_none_of_forall {l : List (K × V)} {k : K}
    (h : ∀ p ∈ l, p.1 ≠ k) : mlookup l k = none := by
  induction l with
  | nil => rfl
  | cons p t ih =>
    obtain ⟨k', v'⟩ := p
    have hk : k ≠ k' := fun he => h (k', v') (by simp) (by simp [he])
    simp only [mlookup, if_neg hk]
    exact ih fun q hq => h q (by simp [hq])

theorem mlookup_mem {l : List (K × V)} {k : K} {v : V}
    (h : mlookup l k = some v) : (k, v) ∈ l := by
  induction l with
  | nil => simp [mlookup] at h
  | cons p t ih =>
    obtain ⟨k', v'⟩ := p
    by_cases hk : k = k'
    · simp only [mlookup, if_pos hk] at h
      subst hk
      simp [← Option.some_inj.mp h]
    · simp only [mlookup, if_neg hk] at h
      simp [ih h]

theorem mem_mlookup {l : List (K × V)} (hs : msorted l) {k : K} {v : V}
    (h : (k, v) ∈ l) : mlookup l k = some v := by
  induction l with
  | nil => simp at h
  | cons p t ih =>
    obtain ⟨k', v'⟩ := p
    rcases List.mem_cons.mp h with he | ht
    · obtain ⟨rfl, rfl⟩ := Prod.mk.injEq .. ▸ he
      simp [mlookup]
    · have hk : k ≠ k' := by
        intro he
        subst he
        have := (List.pairwise_cons.mp hs).1 (k, v) ht
        simp at this
      simp only [mlookup, if_neg hk]
      exact ih (List.pairwise_cons.mp hs).2 ht

theorem mlookup_minsert_self (l : List (K × V)) (k : K) (v : V) :
    mlookup (minsert k v l) k = some v := by
  induction l with
  | nil => simp [minsert, mlookup]
  | cons p t ih =>
    obtain ⟨k', v'⟩ := p
    by_cases h1 : k < k'
    · simp [minsert, h1, mlookup]
    · by_cases h2 : k = k'
      · simp [minsert, h1, h2, mlookup]
      · simp [minsert, h1, h2, mlookup, ih]

theorem mlookup_minsert_ne (l : List (K × V)) {k k'' : K} (v : V)
    (h : k'' ≠ k) : mlookup (minsert k v l) k'' = mlookup l k'' := by
  induction l with
  | nil => simp [minsert, mlookup, h]
  | cons p t ih =>
    obtain ⟨k', v'⟩ := p
    by_cases h1 : k < k'
    · simp [minsert, h1, mlookup, h]
    · by_cases h2 : k = k'
      · subst h2
        simp [minsert, h1, mlookup, h]
      · by_cases h3 : k'' = k'
        · simp [minsert, h1, h2, mlookup, h3]
        · simp [minsert, h1, h2, mlookup, h3, ih]

theorem mem_minsert {l : List (K × V)} {k : K} {v : V} {p : K × V}
    (h : p ∈ minsert k v l) : p = (k, v) ∨ p ∈ l := by
  induction l with
  | nil => simpa [minsert] using h
  | cons q t ih =>
    obtain ⟨k', v'⟩ := q
    by_cases h1 : k < k'
    · simpa [minsert, h1] using h
    · by_cases h2 : k = k'
      · rcases (by simpa [minsert, h1, h2] using h : p = (k, v) ∨ p ∈ t) with h3 | h3
        · exact Or.inl h3
        · exact Or.inr (by simp [h3])
      · rcases (by simpa [minsert, h1, h2] using h :
            p = (k', v') ∨ p ∈ minsert k v t) with h3 | h3
        · exact Or.inr (by simp [h3])
        · rcases ih h3 with h4 | h4
          · exact Or.inl h4
          · exact Or.inr (by simp [h4])

theorem msorted_minsert {l : List (K × V)} (hs : msorted l) (k : K) (v : V) :
    msorted (minsert k v l) := by
  induction l with
  | nil => simp [minsert, msorted]
  | cons p t ih =>
    obtain ⟨k', v'⟩ := p
    have hs' := List.pairwise_cons.mp hs
    by_cases h1 : k < k'
    · simp only [minsert, if_pos h1]
      refine List.pairwise_cons.mpr ⟨?_, hs⟩
      intro q hq
      rcases List.mem_cons.mp hq with he | ht
      · simp [he, h1]
      · exact lt_trans h1 (hs'.1 q ht)
    · by_cases h2 : k = k'
      · subst h2
        simp only [minsert, if_neg h1, if_pos rfl]
        exact List.pairwise_cons.mpr ⟨hs'.1, hs'.2⟩
      · have h3 : k' < k := lt_of_le_of_ne (not_lt.mp h1) (Ne.symm h2)
        simp only [minsert, if_neg h1, if_neg h2]
        refine List.pairwise_cons.mpr ⟨?_, ih hs'.2⟩
        intro q hq
        rcases mem_minsert hq with he | ht
        · simp [he, h3]
        · exact hs'.1 q ht

theorem merase_subset {l : List (K × V)} {k : K} {p : K × V}
    (h : p ∈ merase k l) : p ∈ l := by
  induction l with
  | nil => simp [merase] at h
  | cons q t ih =>
    obtain ⟨k', v'⟩ := q
    by_cases h1 : k = k'
    · simp only [merase, if_pos h1] at h
      simp [h]
    · rcases (by simpa [merase, h1] using h : p = (k', v') ∨ p ∈ merase k t) with h2 | h2
      · simp [h2]
      · simp [ih h2]

theorem msorted_merase {l : List (K × V)} (hs : msorted l) (k : K) :
    msorted (merase k l) := by
  induction l with
  | nil => simpa [merase] using hs
  | cons p t ih =>
    obtain ⟨k', v'⟩ := p
    have hs' := List.pairwise_cons.mp hs
    by_cases h1 : k = k'
    · simpa [merase, h1] using hs'.2
    · simp only [merase, if_neg h1]
      refine List.pairwise_cons.mpr ⟨?_, ih hs'.2⟩
      intro q hq
      exact hs'.1 q (merase_subset hq)

theorem mlookup_merase_self {l : List (K × V)} (hs : msorted l) (k : K) :
    mlookup (merase k l) k = none := by
  induction l with
  | nil => rfl
  | cons p t ih =>
    obtain ⟨k', v'⟩ := p
    have hs' := List.pairwise_cons.mp hs
    by_cases h1 : k = k'
    · simp only [merase, if_pos h1]
      subst h1
      exact mlookup_eq_none_of_forall fun q hq => ne_of_gt (hs'.1 q hq)
    · simp only [merase, if_neg h1, mlookup, if_neg h1]
      exact ih hs'.2

theorem mlookup_merase_ne (l : List (K × V)) {k k'' : K}
    (h : k'' ≠ k) : mlookup (merase k l) k'' = mlookup l k'' := by
  induction l with
  | nil => rfl
  | cons p t ih =>
    obtain ⟨k', v'⟩ := p
    by_cases h1 : k = k'
    · subst h1
      simp [merase, mlookup, h]
    · by_cases h2 : k'' = k'
      · simp [merase, h1, mlookup, h2]
      · simp [merase, h1, mlookup, h2, ih]

/-- A sequence of `BTreeMap::remove` calls (the cascade-deletion loops). -/
def eraseAll (ks : List K) (l : List (K × V)) : List (K × V) :=
  ks.foldl (fun acc k => merase k acc) l

theorem msorted_eraseAll {l : List (K × V)} (hs : msorted l) (ks : List K) :
    msorted (eraseAll ks l) := by
  induction ks generalizing l with
  | nil => exact hs
  | cons k t ih => exact ih (msorted_merase hs k)

theorem mlookup_eraseAll_none {l : List (K × V)} (hs : msorted l)
    {k : K} (hn : mlookup l k = none) (ks : List K) :
    mlookup (eraseAll ks l) k = none := by
  induction ks generalizing l with
  | nil => exact hn
  | cons k' t ih =>
    refine ih (msorted_merase hs k') ?_
    by_cases h1 : k = k'
    · subst h1
      exact mlookup_merase_self hs k
    · rw [mlookup_merase_ne l h1]
      exact hn

theorem mlookup_eraseAll_of_mem {l : List (K × V)} (hs : msorted l)
    {ks : List K} {k : K} (h : k ∈ ks) : mlookup (eraseAll ks l) k = none := by
  induction ks generalizing l with
  | nil => simp at h
  | cons k' t ih =>
    by_cases h1 : k = k'
    · subst h1
      exact mlookup_eraseAll_none (msorted_merase hs k) (mlookup_merase_self hs k) t
    · rcases List.mem_cons.mp h with he | ht
      · exact absurd he h1
      · exact ih (msorted_merase hs k') ht

theorem mlookup_eraseAll_of_not_mem (l : List (K × V))
    {ks : List K} {k : K} (h : k ∉ ks) : mlookup (eraseAll ks l) k = mlookup l k := by
  induction ks generalizing l with
  | nil => rfl
  | cons k' t ih =>
    have h1 : k ≠ k' := fun he => h (he ▸ List.mem_cons_self k' t)
    have h2 : k ∉ t := fun hm => h (List.mem_cons_of_mem k' hm)
    rw [eraseAll, List.foldl_cons, ← eraseAll, ih _ h2, mlookup_merase_ne l h1]

theorem mrange_subset {l : List (K × V)} {k : K} {p : K × V}
    (h : p ∈ mrange l k) : p ∈ l :=
  (List.dropWhile_sublist _).mem h

end SortedMap

/-! ## Model types (`src/lib/src/models`) -/

/-- `models::Vertex`: an identifier with an immutable type. -/
structure Vertex where
  id : Uuid
  t : Str
deriving DecidableEq

/-- `models::Edge`: an edge key together with its creation time. -/
structure Edge where
  key : EdgeKey
  created_datetime : DateTimeU
deriving DecidableEq

/-- `models::VertexProperty`. -/
structure VertexProperty where
  id : Uuid
  value : JsonValue
deriving DecidableEq

/-- `models::EdgeProperty`. -/
structure EdgeProperty where
  key : EdgeKey
  value : JsonValue
deriving DecidableEq

/-- `models::EdgeDirection` (queries.rs). -/
inductive EdgeDirection where
  | outbound
  | inbound
deriving DecidableEq

/-- `EdgeDirection::from_str`: `"outbound"`/`"inbound"`, anything else is
a validation error. -/
def EdgeDirection.fromStr (s : Str) : Option EdgeDirection :=
  if s = "outbound".toList then some .outbound
  else if s = "inbound".toList then some .inbound
  else none

/-- `String::from(EdgeDirection)`. -/
def EdgeDirection.toStr : EdgeDirection → Str
  | .outbound => "outbound".toList
  | .inbound => "inbound".toList

mutual
/-- `models::VertexQuery` (queries.rs): `All`, `Vertices`, `Pipe`. -/
inductive VertexQuery where
  | all (start_id : Option Uuid) (limit : Nat)
  | vertices (ids : List Uuid)
  | pipe (edge_query : EdgeQuery) (converter : EdgeDirection) (limit : Nat)
deriving DecidableEq

/-- `models::EdgeQuery` (queries.rs): `Edges`, `Pipe`. -/
inductive EdgeQuery where
  | edges (keys : List EdgeKey)
  | pipe (vertex_query : VertexQuery) (converter : EdgeDirection)
      (type_filter : Option Str) (high_filter : Option DateTimeU)
      (low_filter : Option DateTimeU) (limit : Nat)
deriving DecidableEq
end

/-! ## The in-memory datastore (`src/lib/src/memory/datastore.rs`) -/

/-- `InternalMemoryDatastore`: the four ordered maps behind the RwLock. -/
structure Datastore where
  edge_properties : List (EPKey × JsonValue)
  edges : List (EdgeKey × DateTimeU)
  vertex_properties : List (VPKey × JsonValue)
  vertices : List (Uuid × Str)
deriving DecidableEq

/-- `MemoryDatastore::default()`: all four maps empty. -/
def Datastore.empty : Datastore := ⟨[], [], [], []⟩

/-- The `BTreeMap` representation invariant for all four maps. -/
def Datastore.sorted (s : Datastore) : Prop :=
  msorted s.edge_properties ∧ msorted s.edges ∧
    msorted s.vertex_properties ∧ msorted s.vertices

/-- The timestamp-filter checks of the edge-pipe arms: an edge is skipped
(`continue`) when `*update_datetime > high_filter` or
`*update_datetime < low_filter`; it is kept otherwise, i.e. exactly when
`low_filter ≤ update_datetime ≤ high_filter` (absent bounds do not
constrain). -/
def tsKeep (high_filter low_filter : Option DateTimeU) (ts : DateTimeU) : Bool :=
  (match high_filter with
   | some h => decide (ts ≤ h)
   | none => true) &&
  (match low_filter with
   | some l => decide (l ≤ ts)
   | none => true)

/-- The type check of the outbound edge-pipe arm: a `break` (not a skip)
as soon as the scanned key's type differs from the filter. -/
def typeMatch (type_filter : Option Str) (t : Str) : Bool :=
  match type_filter with
  | some tf => t = tf
  | none => true

/-- Lower bound used by the outbound range scans: `EdgeKey::new(id,
type_filter.unwrap_or_default(), Uuid::default())` — `Type::default()`
is the empty string and `Uuid::default()` the nil UUID. -/
def scanLowerBound (id : Uuid) (type_filter : Option Str) : EdgeKey :=
  { outbound_id := id, t := type_filter.getD [], inbound_id := 0 }

/-- The inner loop of the outbound edge-pipe arm
(`get_edge_values_by_query`, `EdgeDirection::Outbound`): walk the range,
`break` on a different `outbound_id` or (with a type filter) a different
type, `continue` past timestamp-filter failures, push otherwise, and
return early (second component `true`) once `results.len() == limit`. -/
def scanOutbound (id : Uuid) (type_filter : Option Str)
    (high_filter low_filter : Option DateTimeU) (limit : Nat) :
    List (EdgeKey × DateTimeU) → List (EdgeKey × DateTimeU) →
    List (EdgeKey × DateTimeU) × Bool
  | [], acc => (acc, false)
  | (key, ts) :: rest, acc =>
    if key.outbound_id ≠ id then (acc, false)
    else if ¬ typeMatch type_filter key.t then (acc, false)
    else if ¬ tsKeep high_filter low_filter ts then
      scanOutbound id type_filter high_filter low_filter limit rest acc
    else
      let acc' := acc ++ [(key, ts)]
      if acc'.length = limit then (acc', true)
      else scanOutbound id type_filter high_filter low_filter limit rest acc'

/-- The outer loop of the outbound edge-pipe arm: one range scan per
source vertex, with the early `return` of the inner loop propagated. -/
def outboundLoop (edges : List (EdgeKey × DateTimeU)) (type_filter : Option Str)
    (high_filter low_filter : Option DateTimeU) (limit : Nat) :
    List (Uuid × Str) → List (EdgeKey × DateTimeU) → List (EdgeKey × DateTimeU)
  | [], acc => acc
  | (id, _) :: rest, acc =>
    let scanned := scanOutbound id type_filter high_filter low_filter limit
      (mrange edges (scanLowerBound id type_filter)) acc
    if scanned.2 then scanned.1
    else outboundLoop edges type_filter high_filter low_filter limit rest scanned.1

/-- The loop of the inbound edge-pipe arm: iterate the whole edge map in
key order, `continue` past candidate-set misses, type mismatches and
timestamp-filter failures, push otherwise, and return early at the
limit. -/
def scanInbound (candidate_ids : List Uuid) (type_filter : Option Str)
    (high_filter low_filter : Option DateTimeU) (limit : Nat) :
    List (EdgeKey × DateTimeU) → List (EdgeKey × DateTimeU) →
    List (EdgeKey × DateTimeU)
  | [], acc => acc
  | (key, ts) :: rest, acc =>
    if ¬ candidate_ids.contains key.inbound_id then
      scanInbound candidate_ids type_filter high_filter low_filter limit rest acc
    else if ¬ typeMatch type_filter key.t then
      scanInbound candidate_ids type_filter high_filter low_filter limit rest acc
    else if ¬ tsKeep high_filter low_filter ts then
      scanInbound candidate_ids type_filter high_filter low_filter limit rest acc
    else
      let acc' := acc ++ [(key, ts)]
      if acc'.length = limit then acc'
      else scanInbound candidate_ids type_filter high_filter low_filter limit rest acc'

/-- The hydration loop shared by the `Vertices` and `Pipe` arms of
`get_vertex_values_by_query`: look every id up in the vertex map and
silently drop the misses. -/
def hydrateVertices (vertices : List (Uuid × Str)) : List Uuid → List (Uuid × Str)
  | [] => []
  | id :: rest =>
    match mlookup vertices id with
    | some t => (id, t) :: hydrateVertices vertices rest
    | none => hydrateVertices vertices rest

/-- The key-lookup loop of the `Edges` arm of `get_edge_values_by_query`:
return the edge for each given key that exists. -/
def lookupEdges (edges : List (EdgeKey × DateTimeU)) : List EdgeKey →
    List (EdgeKey × DateTimeU)
  | [] => []
  | key :: rest =>
    match mlookup edges key with
    | some ts => (key, ts) :: lookupEdges edges rest
    | none => lookupEdges edges rest

/-- Projection applied by the `VertexQuery::Pipe` arm. -/
def projectEndpoint (converter : EdgeDirection) (key : EdgeKey) : Uuid :=
  match converter with
  | .outbound => key.outbound_id
  | .inbound => key.inbound_id

mutual
/-- `InternalMemoryDatastore::get_vertex_values_by_query`.  The memory
evaluator never constructs an error, so `Result` is elided. -/
def get_vertex_values_by_query (s : Datastore) : VertexQuery → List (Uuid × Str)
  | .all start_id limit =>
    match start_id with
    | some start_id => (mrange s.vertices start_id).take limit
    | none => s.vertices.take limit
  | .vertices ids => hydrateVertices s.vertices ids
  | .pipe edge_query converter limit =>
    let edge_values := get_edge_values_by_query s edge_query
    let ids := (edge_values.take limit).map (fun p => projectEndpoint converter p.1)
    hydrateVertices s.vertices ids

/-- `InternalMemoryDatastore::get_edge_values_by_query`. -/
def get_edge_values_by_query (s : Datastore) : EdgeQuery → List (EdgeKey × DateTimeU)
  | .edges keys => lookupEdges s.edges keys
  | .pipe vertex_query converter type_filter high_filter low_filter limit =>
    let vertex_values := get_vertex_values_by_query s vertex_query
    if limit = 0 then []
    else
      match converter with
      | .outbound =>
        outboundLoop s.edges type_filter high_filter low_filter limit vertex_values []
      | .inbound =>
        let candidate_ids := vertex_values.map (fun p => p.1)
        scanInbound candidate_ids type_filter high_filter low_filter limit s.edges []
end

/-! ### Cascading deletion (`InternalMemoryDatastore::delete_vertices` /
`delete_edges`) -/

/-- One iteration of `InternalMemoryDatastore::delete_edges`: remove the
edge, then range-scan `edge_properties` from `(key, "")`, breaking at the
first entry whose key differs, and remove everything seen. -/
def deleteEdgeStep (s : Datastore) (edge_key : EdgeKey) : Datastore :=
  let s1 := { s with edges := merase edge_key s.edges }
  let deletable_edge_properties :=
    ((mrange s1.edge_properties ⟨edge_key, []⟩).takeWhile
      (fun p => p.1.key = edge_key)).map (fun p => p.1)
  { s1 with edge_properties := eraseAll deletable_edge_properties s1.edge_properties }

/-- `InternalMemoryDatastore::delete_edges`. -/
def delete_edges_internal (s : Datastore) (edges : List EdgeKey) : Datastore :=
  edges.foldl deleteEdgeStep s

/-- One iteration of `InternalMemoryDatastore::delete_vertices`: remove
the vertex, remove its properties (range scan from `(vertex_id, "")`
breaking at the first entry with a different id), collect every edge
whose key names the vertex as either endpoint, and cascade to
`delete_edges`. -/
def deleteVertexStep (s : Datastore) (vertex_id : Uuid) : Datastore :=
  let s1 := { s with vertices := merase vertex_id s.vertices }
  let deletable_vertex_properties :=
    ((mrange s1.vertex_properties ⟨vertex_id, []⟩).takeWhile
      (fun p => p.1.id = vertex_id)).map (fun p => p.1)
  let s2 := { s1 with
    vertex_properties := eraseAll deletable_vertex_properties s1.vertex_properties }
  let deletable_edges := (s2.edges.filter
    (fun p => p.1.outbound_id = vertex_id || p.1.inbound_id = vertex_id)).map (fun p => p.1)
  delete_edges_internal s2 deletable_edges

/-- `InternalMemoryDatastore::delete_vertices`. -/
def delete_vertices_internal (s : Datastore) (vertices : List Uuid) : Datastore :=
  vertices.foldl deleteVertexStep s

/-! ### Transaction operations (`impl Transaction for MemoryTransaction`).
Each operation is a pure state transformer; `Utc::now()` is an explicit
parameter where the code calls it. -/

/-- `MemoryTransaction::create_vertex`: `entry(id).or_insert_with(...)` —
insert only when absent, report whether an insert happened. -/
def create_vertex (s : Datastore) (vertex : Vertex) : Datastore × Bool :=
  match mlookup s.vertices vertex.id with
  | some _ => (s, false)
  | none => ({ s with vertices := minsert vertex.id vertex.t s.vertices }, true)

/-- `MemoryTransaction::get_vertices`. -/
def get_vertices (s : Datastore) (q : VertexQuery) : List Vertex :=
  (get_vertex_values_by_query s q).map (fun p => { id := p.1, t := p.2 })

/-- `MemoryTransaction::delete_vertices`. -/
def delete_vertices (s : Datastore) (q : VertexQuery) : Datastore :=
  delete_vertices_internal s ((get_vertex_values_by_query s q).map (fun p => p.1))

/-- `MemoryTransaction::get_vertex_count`. -/
def get_vertex_count (s : Datastore) : Nat := s.vertices.length

/-- `MemoryTransaction::create_edge`: refuse (returning `false`) when
either endpoint is absent from the vertex map, otherwise unconditionally
insert the key with the current time. -/
def create_edge (s : Datastore) (key : EdgeKey) (now : DateTimeU) : Datastore × Bool :=
  if mlookup s.vertices key.outbound_id = none ∨
      mlookup s.vertices key.inbound_id = none then (s, false)
  else ({ s with edges := minsert key now s.edges }, true)

/-- `MemoryTransaction::get_edges`. -/
def get_edges (s : Datastore) (q : EdgeQuery) : List Edge :=
  (get_edge_values_by_query s q).map (fun p => { key := p.1, created_datetime := p.2 })

/-- `MemoryTransaction::delete_edges`. -/
def delete_edges (s : Datastore) (q : EdgeQuery) : Datastore :=
  delete_edges_internal s ((get_edge_values_by_query s q).map (fun p => p.1))

/-- `MemoryTransaction::get_edge_count`: a bounded range scan with
`take_while` for `Outbound`, a full-map `filter` for `Inbound`. -/
def get_edge_count (s : Datastore) (id : Uuid) (type_filter : Option Str)
    (direction : EdgeDirection) : Nat :=
  match direction with
  | .outbound =>
    ((mrange s.edges (scanLowerBound id type_filter)).takeWhile
      (fun p =>
        match type_filter with
        | some tf => p.1.outbound_id = id && p.1.t = tf
        | none => p.1.outbound_id = id)).length
  | .inbound =>
    (s.edges.filter
      (fun p =>
        match type_filter with
        | some tf => p.1.inbound_id = id && p.1.t = tf
        | none => p.1.inbound_id = id)).length

/-- `MemoryTransaction::get_vertex_properties`: one entry per query
result that has the named property; results without it are dropped. -/
def get_vertex_properties (s : Datastore) (q : VertexQuery) (name : Str) :
    List VertexProperty :=
  (get_vertex_values_by_query s q).foldr
    (fun p acc =>
      match mlookup s.vertex_properties ⟨p.1, name⟩ with
      | some v => { id := p.1, value := v } :: acc
      | none => acc) []

/-- `MemoryTransaction::set_vertex_properties`: evaluate the query, then
upsert `(id, name) → value` for each result. -/
def set_vertex_properties (s : Datastore) (q : VertexQuery) (name : Str)
    (value : JsonValue) : Datastore :=
  let m := (get_vertex_values_by_query s q).foldl
    (fun m p => minsert ⟨p.1, name⟩ value m) s.vertex_properties
  { s with vertex_properties := m }

/-- `MemoryTransaction::delete_vertex_properties`. -/
def delete_vertex_properties (s : Datastore) (q : VertexQuery) (name : Str) :
    Datastore :=
  let m := (get_vertex_values_by_query s q).foldl
    (fun m p => merase (⟨p.1, name⟩ : VPKey) m) s.vertex_properties
  { s with vertex_properties := m }

/-- `MemoryTransaction::get_edge_properties`. -/
def get_edge_properties (s : Datastore) (q : EdgeQuery) (name : Str) :
    List EdgeProperty :=
  (get_edge_values_by_query s q).foldr
    (fun p acc =>
      match mlookup s.edge_properties ⟨p.1, name⟩ with
      | some v => { key := p.1, value := v } :: acc
      | none => acc) []

/-- `MemoryTransaction::set_edge_properties`. -/
def set_edge_properties (s : Datastore) (q : EdgeQuery) (name : Str)
    (value : JsonValue) : Datastore :=
  let m := (get_edge_values_by_query s q).foldl
    (fun m p => minsert ⟨p.1, name⟩ value m) s.edge_properties
  { s with edge_properties := m }

/-- `MemoryTransaction::delete_edge_properties`. -/
def delete_edge_properties (s : Datastore) (q : EdgeQuery) (name : Str) :
    Datastore :=
  let m := (get_edge_values_by_query s q).foldl
    (fun m p => merase (⟨p.1, name⟩ : EPKey) m) s.edge_properties
  { s with edge_properties := m }

/-! ### Reachability: states produced by sequences of transaction
operations on a fresh datastore -/

/-- One transaction operation that mutates state (read-only operations
leave the state unchanged and need no constructor). -/
inductive Step : Datastore → Datastore → Prop where
  | create_vertex (s : Datastore) (v : Vertex) : Step s (create_vertex s v).1
  | create_edge (s : Datastore) (k : EdgeKey) (now : DateTimeU) :
      Step s (create_edge s k now).1
  | delete_vertices (s : Datastore) (q : VertexQuery) : Step s (delete_vertices s q)
  | delete_edges (s : Datastore) (q : EdgeQuery) : Step s (delete_edges s q)
  | set_vertex_properties (s : Datastore) (q : VertexQuery) (name : Str)
      (value : JsonValue) : Step s (set_vertex_properties s q name value)
  | delete_vertex_properties (s : Datastore) (q : VertexQuery) (name : Str) :
      Step s (delete_vertex_properties s q name)
  | set_edge_properties (s : Datastore) (q : EdgeQuery) (name : Str)
      (value : JsonValue) : Step s (set_edge_properties s q name value)
  | delete_edge_properties (s : Datastore) (q : EdgeQuery) (name : Str) :
      Step s (delete_edge_properties s q name)

/-- A state reachable from a fresh datastore by a sequence of
transaction operations. -/
def Reachable (s : Datastore) : Prop :=
  Relation.ReflTransGen Step Datastore.empty s

/-- Referential consistency: every edge references two present vertices,
every vertex-property key references a present vertex, and every
edge-property key references a present edge. -/
def consistent (s : Datastore) : Prop :=
  (∀ p ∈ s.edges, (mlookup s.vertices (p.1 : EdgeKey).outbound_id).isSome ∧
      (mlookup s.vertices (p.1 : EdgeKey).inbound_id).isSome) ∧
  (∀ p ∈ s.vertex_properties, (mlookup s.vertices (p.1 : VPKey).id).isSome) ∧
  (∀ p ∈ s.edge_properties, (mlookup s.edges (p.1 : EPKey).key).isSome)

instance (s : Datastore) : Decidable s.sorted := by
  unfold Datastore.sorted msorted
  infer_instance

instance (s : Datastore) : Decidable (consistent s) := by
  unfold consistent
  infer_instance

/-! ## Characterising the edge-pipe loops

The two pipe loops are early-returning accumulator loops; the lemmas
below rephrase them as `take limit` of a `filter` over a candidate
stream, separating the three mechanisms the claims talk about: the
range/break scan shape, the timestamp filters, and the limit. -/

/-- The predicate the outbound scan `break`s on (negated):
still on the source vertex and, when a type filter is set, still on the
filtered type. -/
def outKeep (id : Uuid) (type_filter : Option Str) (q : EdgeKey × DateTimeU) : Bool :=
  q.1.outbound_id = id && typeMatch type_filter q.1.t

/-- The candidate edges scanned by the outbound pipe: for each source
vertex, the maximal range-scan segment before a `break`. -/
def outboundStream (edges : List (EdgeKey × DateTimeU)) (type_filter : Option Str)
    (vertex_values : List (Uuid × Str)) : List (EdgeKey × DateTimeU) :=
  vertex_values.flatMap (fun p =>
    (mrange edges (scanLowerBound p.1 type_filter)).takeWhile (outKeep p.1 type_filter))

/-- The candidate edges scanned by the inbound pipe: the whole edge map
filtered by candidate-set membership and the type filter. -/
def inboundStream (edges : List (EdgeKey × DateTimeU)) (type_filter : Option Str)
    (candidate_ids : List Uuid) : List (EdgeKey × DateTimeU) :=
  edges.filter (fun q => candidate_ids.contains q.1.inbound_id && typeMatch type_filter q.1.t)

theorem scanOutbound_eq (id : Uuid) (type_filter : Option Str)
    (high_filter low_filter : Option DateTimeU) (limit : Nat)
    (l : List (EdgeKey × DateTimeU)) (acc : List (EdgeKey × DateTimeU))
    (hacc : acc.length < limit) :
    scanOutbound id type_filter high_filter low_filter limit l acc =
      if acc.length + ((l.takeWhile (outKeep id type_filter)).filter
          (fun q => tsKeep high_filter low_filter q.2)).length < limit
      then (acc ++ (l.takeWhile (outKeep id type_filter)).filter
          (fun q => tsKeep high_filter low_filter q.2), false)
      else ((acc ++ (l.takeWhile (outKeep id type_filter)).filter
          (fun q => tsKeep high_filter low_filter q.2)).take limit, true) := by
  induction l generalizing acc with
  | nil =>
    simp only [scanOutbound, List.takeWhile_nil, List.filter_nil, List.append_nil,
      List.length_nil, Nat.add_zero, if_pos hacc]
  | cons q rest ih =>
    obtain ⟨key, ts⟩ := q
    by_cases h1 : key.outbound_id = id
    · by_cases h2 : typeMatch type_filter key.t
      · have hkeep : outKeep id type_filter (key, ts) = true := by
          simp [outKeep, h1, h2]
        rw [List.takeWhile_cons_of_pos hkeep]
        by_cases h3 : tsKeep high_filter low_filter ts
        · -- kept by the timestamp filters: push
          rw [List.filter_cons_of_pos (by simpa using h3)]
          have hstep : scanOutbound id type_filter high_filter low_filter limit
              ((key, ts) :: rest) acc =
              if (acc ++ [(key, ts)]).length = limit then (acc ++ [(key, ts)], true)
              else scanOutbound id type_filter high_filter low_filter limit rest
                (acc ++ [(key, ts)]) := by
            simp [scanOutbound, h1, h2, h3]
          rw [hstep]
          have harr : ∀ tail : List (EdgeKey × DateTimeU),
              acc ++ [(key, ts)] ++ tail = acc ++ (key, ts) :: tail := by
            intro tail; simp
          have hlen1 : (acc ++ [(key, ts)]).length = acc.length + 1 := by simp
          by_cases h4 : (acc ++ [(key, ts)]).length = limit
          · have hcond : ¬ (acc.length + ((key, ts) ::
                ((rest.takeWhile (outKeep id type_filter)).filter
                  (fun q => tsKeep high_filter low_filter q.2))).length < limit) := by
              simp only [List.length_cons]
              omega
            have htake : (acc ++ (key, ts) ::
                ((rest.takeWhile (outKeep id type_filter)).filter
                  (fun q => tsKeep high_filter low_filter q.2))).take limit =
                acc ++ [(key, ts)] := by
              rw [← harr, List.take_append_of_le_length (le_of_eq h4.symm),
                List.take_of_length_le (le_of_eq h4)]
            rw [if_pos h4, if_neg hcond, htake]
          · have hlt : (acc ++ [(key, ts)]).length < limit := by omega
            rw [if_neg h4, ih _ hlt]
            by_cases h5 : (acc ++ [(key, ts)]).length +
                ((rest.takeWhile (outKeep id type_filter)).filter
                  (fun q => tsKeep high_filter low_filter q.2)).length < limit
            · rw [if_pos h5, if_pos (by simp only [List.length_cons]; omega), harr]
            · rw [if_neg h5, if_neg (by simp only [List.length_cons]; omega), harr]
        · -- dropped by a timestamp filter: continue
          have hstep : scanOutbound id type_filter high_filter low_filter limit
              ((key, ts) :: rest) acc =
              scanOutbound id type_filter high_filter low_filter limit rest acc := by
            simp [scanOutbound, h1, h2, h3]
          rw [hstep, ih _ hacc, List.filter_cons_of_neg (by simpa using h3)]
      · -- type-filter mismatch: break
        have hkeep : outKeep id type_filter (key, ts) = false := by
          simp only [outKeep, Bool.and_eq_false_iff]
          exact Or.inr (by simpa using h2)
        have hstep : scanOutbound id type_filter high_filter low_filter limit
            ((key, ts) :: rest) acc = (acc, false) := by
          simp [scanOutbound, h1, h2]
        rw [hstep, List.takeWhile_cons_of_neg (by simp [hkeep])]
        simp only [List.filter_nil, List.append_nil, List.length_nil, Nat.add_zero,
          if_pos hacc]
    · -- different source vertex: break
      have hkeep : outKeep id type_filter (key, ts) = false := by
        simp only [outKeep, Bool.and_eq_false_iff]
        exact Or.inl (by simpa using h1)
      have hstep : scanOutbound id type_filter high_filter low_filter limit
          ((key, ts) :: rest) acc = (acc, false) := by
        simp [scanOutbound, h1]
      rw [hstep, List.takeWhile_cons_of_neg (by simp [hkeep])]
      simp only [List.filter_nil, List.append_nil, List.length_nil, Nat.add_zero,
        if_pos hacc]

theorem outboundLoop_eq (edges : List (EdgeKey × DateTimeU)) (type_filter : Option Str)
    (high_filter low_filter : Option DateTimeU) (limit : Nat)
    (sources : List (Uuid × Str)) (acc : List (EdgeKey × DateTimeU))
    (hacc : acc.length < limit) :
    outboundLoop edges type_filter high_filter low_filter limit sources acc =
      (acc ++ (outboundStream edges type_filter sources).filter
        (fun q => tsKeep high_filter low_filter q.2)).take limit := by
  induction sources generalizing acc with
  | nil =>
    simp only [outboundLoop, outboundStream, List.flatMap_nil, List.filter_nil,
      List.append_nil]
    exact (List.take_of_length_le (le_of_lt hacc)).symm
  | cons p rest ih =>
    obtain ⟨id, t⟩ := p
    rw [outboundLoop]
    rw [scanOutbound_eq _ _ _ _ _ _ _ hacc]
    have hstream : (outboundStream edges type_filter ((id, t) :: rest)).filter
        (fun q => tsKeep high_filter low_filter q.2) =
        ((mrange edges (scanLowerBound id type_filter)).takeWhile
          (outKeep id type_filter)).filter (fun q => tsKeep high_filter low_filter q.2) ++
        (outboundStream edges type_filter rest).filter
          (fun q => tsKeep high_filter low_filter q.2) := by
      rw [outboundStream, List.flatMap_cons, List.filter_append]
      rfl
    by_cases h1 : acc.length +
        (((mrange edges (scanLowerBound id type_filter)).takeWhile
          (outKeep id type_filter)).filter
          (fun q => tsKeep high_filter low_filter q.2)).length < limit
    · rw [if_pos h1]
      simp only [Bool.false_eq_true, if_false]
      rw [ih _ (by simpa using h1), hstream, ← List.append_assoc]
    · rw [if_neg h1]
      simp only [if_true]
      have htake : ((acc ++ ((mrange edges (scanLowerBound id type_filter)).takeWhile
          (outKeep id type_filter)).filter (fun q => tsKeep high_filter low_filter q.2)) ++
          (outboundStream edges type_filter rest).filter
            (fun q => tsKeep high_filter low_filter q.2)).take limit =
          (acc ++ ((mrange edges (scanLowerBound id type_filter)).takeWhile
            (outKeep id type_filter)).filter
              (fun q => tsKeep high_filter low_filter q.2)).take limit :=
        List.take_append_of_le_length (by simp at h1 ⊢; omega)
      rw [hstream, ← List.append_assoc, htake]

theorem scanInbound_eq (candidate_ids : List Uuid) (type_filter : Option Str)
    (high_filter low_filter : Option DateTimeU) (limit : Nat)
    (l : List (EdgeKey × DateTimeU)) (acc : List (EdgeKey × DateTimeU))
    (hacc : acc.length < limit) :
    scanInbound candidate_ids type_filter high_filter low_filter limit l acc =
      (acc ++ l.filter (fun q => candidate_ids.contains q.1.inbound_id &&
        typeMatch type_filter q.1.t && tsKeep high_filter low_filter q.2)).take limit := by
  induction l generalizing acc with
  | nil =>
    simp only [scanInbound, List.filter_nil, List.append_nil]
    exact (List.take_of_length_le (le_of_lt hacc)).symm
  | cons q rest ih =>
    obtain ⟨key, ts⟩ := q
    by_cases h1 : candidate_ids.contains key.inbound_id
    · have h1m : key.inbound_id ∈ candidate_ids := by simpa using h1
      by_cases h2 : typeMatch type_filter key.t
      · by_cases h3 : tsKeep high_filter low_filter ts
        · -- push
          rw [List.filter_cons_of_pos (by simp [h1m, h2, h3])]
          have hstep : scanInbound candidate_ids type_filter high_filter low_filter limit
              ((key, ts) :: rest) acc =
              if (acc ++ [(key, ts)]).length = limit then acc ++ [(key, ts)]
              else scanInbound candidate_ids type_filter high_filter low_filter limit rest
                (acc ++ [(key, ts)]) := by
            simp [scanInbound, h1m, h2, h3]
          rw [hstep]
          have hlen1 : (acc ++ [(key, ts)]).length = acc.length + 1 := by simp
          have harr : ∀ tail : List (EdgeKey × DateTimeU),
              acc ++ [(key, ts)] ++ tail = acc ++ (key, ts) :: tail := by
            intro tail; simp
          by_cases h4 : (acc ++ [(key, ts)]).length = limit
          · have htake : (acc ++ (key, ts) :: (rest.filter
                (fun q => candidate_ids.contains q.1.inbound_id &&
                  typeMatch type_filter q.1.t &&
                  tsKeep high_filter low_filter q.2))).take limit =
                acc ++ [(key, ts)] := by
              rw [← harr, List.take_append_of_le_length (le_of_eq h4.symm),
                List.take_of_length_le (le_of_eq h4)]
            rw [if_pos h4, htake]
          · have hlt : (acc ++ [(key, ts)]).length < limit := by omega
            rw [if_neg h4, ih _ hlt, harr]
        · rw [List.filter_cons_of_neg (by simp [h3])]
          have hstep : scanInbound candidate_ids type_filter high_filter low_filter limit
              ((key, ts) :: rest) acc =
              scanInbound candidate_ids type_filter high_filter low_filter limit rest acc := by
            simp [scanInbound, h1m, h2, h3]
          rw [hstep, ih _ hacc]
      · rw [List.filter_cons_of_neg (by simp [h2])]
        have hstep : scanInbound candidate_ids type_filter high_filter low_filter limit
            ((key, ts) :: rest) acc =
            scanInbound candidate_ids type_filter high_filter low_filter limit rest acc := by
          simp [scanInbound, h1m, h2]
        rw [hstep, ih _ hacc]
    · have h1m : key.inbound_id ∉ candidate_ids := by simpa using h1
      rw [List.filter_cons_of_neg (by simp [h1m])]
      have hstep : scanInbound candidate_ids type_filter high_filter low_filter limit
          ((key, ts) :: rest) acc =
          scanInbound candidate_ids type_filter high_filter low_filter limit rest acc := by
        simp [scanInbound, h1m]
      rw [hstep, ih _ hacc]

/-- The outbound edge-pipe arm, rephrased: candidates from per-source
range scans, kept exactly when the timestamp filters pass, truncated at
the limit. -/
theorem edge_pipe_outbound_eq (s : Datastore) (vq : VertexQuery)
    (type_filter : Option Str) (high_filter low_filter : Option DateTimeU)
    (limit : Nat) :
    get_edge_values_by_query s (.pipe vq .outbound type_filter high_filter low_filter limit) =
      ((outboundStream s.edges type_filter (get_vertex_values_by_query s vq)).filter
        (fun q => tsKeep high_filter low_filter q.2)).take limit := by
  by_cases h0 : limit = 0
  · subst h0
    simp [get_edge_values_by_query]
  · rw [get_edge_values_by_query, if_neg h0,
      outboundLoop_eq _ _ _ _ _ _ _ (by simpa using Nat.pos_of_ne_zero h0),
      List.nil_append]

/-- The inbound edge-pipe arm, rephrased: a full filtered scan of the
edge map, truncated at the limit. -/
theorem edge_pipe_inbound_eq (s : Datastore) (vq : VertexQuery)
    (type_filter : Option Str) (high_filter low_filter : Option DateTimeU)
    (limit : Nat) :
    get_edge_values_by_query s (.pipe vq .inbound type_filter high_filter low_filter limit) =
      (s.edges.filter (fun q =>
        ((get_vertex_values_by_query s vq).map (fun p => p.1)).contains q.1.inbound_id &&
        typeMatch type_filter q.1.t && tsKeep high_filter low_filter q.2)).take limit := by
  by_cases h0 : limit = 0
  · subst h0
    simp [get_edge_values_by_query]
  · rw [get_edge_values_by_query, if_neg h0,
      scanInbound_eq _ _ _ _ _ _ _ (by simpa using Nat.pos_of_ne_zero h0),
      List.nil_append]

/-! ## Helper lemmas about hydration and the query evaluators -/

theorem hydrateVertices_eq_filterMap (vs : List (Uuid × Str)) (ids : List Uuid) :
    hydrateVertices vs ids =
      ids.filterMap (fun id => (mlookup vs id).map (fun t => (id, t))) := by
  induction ids with
  | nil => rfl
  | cons id rest ih =>
    rw [hydrateVertices, List.filterMap_cons]
    cases h : mlookup vs id with
    | none => simpa [h] using ih
    | some t => simpa [h] using ih

theorem hydrateVertices_length_le (vs : List (Uuid × Str)) (ids : List Uuid) :
    (hydrateVertices vs ids).length ≤ ids.length := by
  induction ids with
  | nil => exact le_refl _
  | cons id rest ih =>
    rw [hydrateVertices]
    cases mlookup vs id with
    | none => exact le_trans ih (by simp)
    | some t => simpa using ih

/-- Modelled from the spec, §4.1 (the refinement side of C5):
"evaluate the inner edge query, project to `outbound_id` (for Outbound)
or `inbound_id` (for Inbound), take the first `limit`, then hydrate with
vertex type lookups.  Missing vertices are silently dropped." -/
def vertexPipeSpec (s : Datastore) (edge_query : EdgeQuery)
    (converter : EdgeDirection) (limit : Nat) : List (Uuid × Str) :=
  (((get_edge_values_by_query s edge_query).map
      (fun p => projectEndpoint converter p.1)).take limit).filterMap
    (fun id => (mlookup s.vertices id).map (fun t => (id, t)))

/-- Example state for C5: vertices `2` and `3` exist, vertex `1` does
not; edges `(1,"t",2)` and `(3,"t",2)` are in the edge map. -/
def c5State : Datastore :=
  { edge_properties := []
    edges := [(⟨1, ['t'], 2⟩, ⟨0, 0⟩), (⟨3, ['t'], 2⟩, ⟨0, 0⟩)]
    vertex_properties := []
    vertices := [(2, ['u']), (3, ['u'])] }

/-- Example query for C5: pipe the two edges to their outbound ends with
`limit = 1`. -/
def c5Query : VertexQuery :=
  .pipe (.edges [⟨1, ['t'], 2⟩, ⟨3, ['t'], 2⟩]) .outbound 1

/-! ## Claim theorems -/

/-- C3: `create_edge(k)` returns `false` iff `k.outbound_id` or
`k.inbound_id` is absent from the vertex map at call time, and in that
case nothing is inserted (the state is unchanged); when both endpoints
exist the edge is stored under `k` with the current time of the call
(refreshing `created_datetime` if the key already existed). -/
theorem c3_create_edge_endpoints (s : Datastore) (k : EdgeKey) (now : DateTimeU) :
    ((create_edge s k now).2 = false ↔
      (mlookup s.vertices k.outbound_id = none ∨ mlookup s.vertices k.inbound_id = none)) ∧
    ((mlookup s.vertices k.outbound_id = none ∨ mlookup s.vertices k.inbound_id = none) →
      (create_edge s k now).1 = s) ∧
    (¬ (mlookup s.vertices k.outbound_id = none ∨ mlookup s.vertices k.inbound_id = none) →
      (create_edge s k now).1 = { s with edges := minsert k now s.edges } ∧
      mlookup (create_edge s k now).1.edges k = some now) := by
  by_cases h : mlookup s.vertices k.outbound_id = none ∨ mlookup s.vertices k.inbound_id = none
  · refine ⟨by simp [create_edge, h], fun _ => by simp [create_edge, h], fun hc => absurd h hc⟩
  · exact ⟨by simp [create_edge, h], fun hc => absurd hc h,
      fun _ => ⟨by simp [create_edge, h], by simp [create_edge, h, mlookup_minsert_self]⟩⟩

/-- Witness for C3: on a store with vertices `1` and `2`, creating edge
`(1,"x",2)` succeeds and stores the call time; creating `(1,"x",9)`
reports `false`. -/
theorem c3_create_edge_endpoints_witness :
    (create_edge ⟨[], [], [], [(1, ['u']), (2, ['u'])]⟩ ⟨1, ['x'], 2⟩ ⟨5, 0⟩).1 =
      { (⟨[], [], [], [(1, ['u']), (2, ['u'])]⟩ : Datastore) with
        edges := minsert (⟨1, ['x'], 2⟩ : EdgeKey) (⟨5, 0⟩ : DateTimeU) [] } ∧
    mlookup (create_edge ⟨[], [], [], [(1, ['u']), (2, ['u'])]⟩
      ⟨1, ['x'], 2⟩ ⟨5, 0⟩).1.edges ⟨1, ['x'], 2⟩ = some ⟨5, 0⟩ ∧
    (create_edge ⟨[], [], [], [(1, ['u']), (2, ['u'])]⟩ ⟨1, ['x'], 9⟩ ⟨5, 0⟩).1 =
      ⟨[], [], [], [(1, ['u']), (2, ['u'])]⟩ := by
  refine ⟨?_, ?_, ?_⟩
  · exact ((c3_create_edge_endpoints _ _ _).2.2 (by decide)).1
  · exact ((c3_create_edge_endpoints _ _ _).2.2 (by decide)).2
  · exact (c3_create_edge_endpoints ⟨[], [], [], [(1, ['u']), (2, ['u'])]⟩
      ⟨1, ['x'], 9⟩ ⟨5, 0⟩).2.1 (by decide)

/-- C7: `create_vertex` is a no-op returning `false` when the id is
already present (the whole state, in particular the stored type, is
unchanged, whatever type the argument carries); when the id is absent it
stores the argument's type under the id and returns `true`. -/
theorem c7_create_vertex_idempotent (s : Datastore) (v : Vertex) :
    (mlookup s.vertices v.id ≠ none →
      (create_vertex s v).2 = false ∧ (create_vertex s v).1 = s) ∧
    (mlookup s.vertices v.id = none →
      (create_vertex s v).2 = true ∧
      mlookup (create_vertex s v).1.vertices v.id = some v.t) := by
  constructor
  · intro h
    match hl : mlookup s.vertices v.id with
    | some t => exact ⟨by simp [create_vertex, hl], by simp [create_vertex, hl]⟩
    | none => exact absurd hl h
  · intro h
    exact ⟨by simp [create_vertex, h], by simp [create_vertex, h, mlookup_minsert_self]⟩

/-- Witness for C7: re-creating vertex `1` with a different type returns
`false` and leaves the store (with its stored type `"u"`) unchanged;
creating the fresh vertex `2` returns `true` and stores its type. -/
theorem c7_create_vertex_idempotent_witness :
    ((create_vertex ⟨[], [], [], [(1, ['u'])]⟩ ⟨1, ['w']⟩).2 = false ∧
      (create_vertex ⟨[], [], [], [(1, ['u'])]⟩ ⟨1, ['w']⟩).1 = ⟨[], [], [], [(1, ['u'])]⟩) ∧
    ((create_vertex ⟨[], [], [], [(1, ['u'])]⟩ ⟨2, ['w']⟩).2 = true ∧
      mlookup (create_vertex ⟨[], [], [], [(1, ['u'])]⟩ ⟨2, ['w']⟩).1.vertices 2 =
        some ['w']) :=
  ⟨(c7_create_vertex_idempotent ⟨[], [], [], [(1, ['u'])]⟩ ⟨1, ['w']⟩).1 (by decide),
   (c7_create_vertex_idempotent ⟨[], [], [], [(1, ['u'])]⟩ ⟨2, ['w']⟩).2 (by decide)⟩

/-- C10 (frame property of duplicate edge insertion): when edge key `k`
is present and both its endpoints exist, `create_edge(k)` changes only
the timestamp stored under `k` in the edge map; the vertex map, both
property maps, and every other edge entry are unchanged. -/
theorem c10_create_edge_frame (s : Datastore) (k : EdgeKey) (now : DateTimeU)
    (hout : mlookup s.vertices k.outbound_id ≠ none)
    (hin : mlookup s.vertices k.inbound_id ≠ none)
    (_hpresent : mlookup s.edges k ≠ none) :
    (create_edge s k now).1.vertices = s.vertices ∧
    (create_edge s k now).1.vertex_properties = s.vertex_properties ∧
    (create_edge s k now).1.edge_properties = s.edge_properties ∧
    mlookup (create_edge s k now).1.edges k = some now ∧
    (∀ k' : EdgeKey, k' ≠ k →
      mlookup (create_edge s k now).1.edges k' = mlookup s.edges k') := by
  have h : ¬ (mlookup s.vertices k.outbound_id = none ∨
      mlookup s.vertices k.inbound_id = none) := by
    intro hc
    rcases hc with hc | hc
    · exact hout hc
    · exact hin hc
  refine ⟨by simp [create_edge, h], by simp [create_edge, h], by simp [create_edge, h],
    by simp [create_edge, h, mlookup_minsert_self], ?_⟩
  intro k' hk
  simp only [create_edge, if_neg h]
  exact mlookup_minsert_ne s.edges now hk

/-- Witness for C10: refreshing the already-present edge `(1,"x",2)`
leaves everything but its timestamp alone. -/
theorem c10_create_edge_frame_witness :
    (create_edge ⟨[], [(⟨1, ['x'], 2⟩, ⟨3, 0⟩)], [], [(1, ['u']), (2, ['u'])]⟩
      ⟨1, ['x'], 2⟩ ⟨7, 0⟩).1.vertices = [(1, ['u']), (2, ['u'])] ∧
    mlookup (create_edge ⟨[], [(⟨1, ['x'], 2⟩, ⟨3, 0⟩)], [], [(1, ['u']), (2, ['u'])]⟩
      ⟨1, ['x'], 2⟩ ⟨7, 0⟩).1.edges ⟨1, ['x'], 2⟩ = some ⟨7, 0⟩ := by
  have h := c10_create_edge_frame
    ⟨[], [(⟨1, ['x'], 2⟩, ⟨3, 0⟩)], [], [(1, ['u']), (2, ['u'])]⟩
    ⟨1, ['x'], 2⟩ ⟨7, 0⟩ (by decide) (by decide) (by decide)
  exact ⟨h.1, h.2.2.2.1⟩

/-- C5: `VertexQuery::Pipe` evaluation equals the spec pipeline —
evaluate the inner edge query, project each key to the
converter-selected endpoint, truncate the raw id sequence at `limit`
BEFORE any vertex lookup, then hydrate, silently dropping ids with no
vertex (`vertexPipeSpec`).  Consequently limit budget is consumed by
missing or duplicate endpoints: in `c5State`/`c5Query` the single limit
slot is consumed by absent vertex `1`, so the result is empty even
though vertex `3` (the outbound end of the second edge) exists. -/
theorem c5_vertex_pipe_limit_before_hydration :
    (∀ (s : Datastore) (eq : EdgeQuery) (conv : EdgeDirection) (limit : Nat),
      get_vertex_values_by_query s (.pipe eq conv limit) = vertexPipeSpec s eq conv limit) ∧
    get_vertex_values_by_query c5State c5Query = [] ∧
    mlookup c5State.vertices 3 = some ['u'] := by
  refine ⟨fun s eq conv limit => ?_, by decide, by decide⟩
  rw [get_vertex_values_by_query, vertexPipeSpec, hydrateVertices_eq_filterMap,
    ← List.map_take]

/-- C6: every query variant carrying a limit returns at most `limit`
results, and `limit = 0` yields the empty result, in every datastore
state. -/
theorem c6_limits (s : Datastore) :
    (∀ (start_id : Option Uuid) (limit : Nat),
      (get_vertex_values_by_query s (.all start_id limit)).length ≤ limit) ∧
    (∀ (eq : EdgeQuery) (conv : EdgeDirection) (limit : Nat),
      (get_vertex_values_by_query s (.pipe eq conv limit)).length ≤ limit) ∧
    (∀ (vq : VertexQuery) (conv : EdgeDirection) (tf : Option Str)
      (hf lf : Option DateTimeU) (limit : Nat),
      (get_edge_values_by_query s (.pipe vq conv tf hf lf limit)).length ≤ limit) ∧
    (∀ start_id : Option Uuid, get_vertex_values_by_query s (.all start_id 0) = []) ∧
    (∀ (eq : EdgeQuery) (conv : EdgeDirection),
      get_vertex_values_by_query s (.pipe eq conv 0) = []) ∧
    (∀ (vq : VertexQuery) (conv : EdgeDirection) (tf : Option Str)
      (hf lf : Option DateTimeU),
      get_edge_values_by_query s (.pipe vq conv tf hf lf 0) = []) := by
  have hall : ∀ (start_id : Option Uuid) (limit : Nat),
      (get_vertex_values_by_query s (.all start_id limit)).length ≤ limit := by
    intro start_id limit
    cases start_id with
    | none =>
      simp only [get_vertex_values_by_query]
      exact List.length_take_le _ _
    | some u =>
      simp only [get_vertex_values_by_query]
      exact List.length_take_le _ _
  have hvpipe : ∀ (eq : EdgeQuery) (conv : EdgeDirection) (limit : Nat),
      (get_vertex_values_by_query s (.pipe eq conv limit)).length ≤ limit := by
    intro eq conv limit
    rw [get_vertex_values_by_query]
    refine le_trans (hydrateVertices_length_le _ _) ?_
    rw [List.length_map]
    exact List.length_take_le _ _
  have hepipe : ∀ (vq : VertexQuery) (conv : EdgeDirection) (tf : Option Str)
      (hf lf : Option DateTimeU) (limit : Nat),
      (get_edge_values_by_query s (.pipe vq conv tf hf lf limit)).length ≤ limit := by
    intro vq conv tf hf lf limit
    cases conv with
    | outbound => rw [edge_pipe_outbound_eq]; exact List.length_take_le _ _
    | inbound => rw [edge_pipe_inbound_eq]; exact List.length_take_le _ _
  refine ⟨hall, hvpipe, hepipe, ?_, ?_, ?_⟩
  · intro start_id
    exact List.length_eq_zero.mp (Nat.le_zero.mp (hall start_id 0))
  · intro eq conv
    exact List.length_eq_zero.mp (Nat.le_zero.mp (hvpipe eq conv 0))
  · intro vq conv tf hf lf
    exact List.length_eq_zero.mp (Nat.le_zero.mp (hepipe vq conv tf hf lf 0))

/-- The candidate edges an edge pipe examines, before the timestamp
filters and the limit: per-source bounded range scans for `Outbound`, a
candidate-set filter of the whole edge map for `Inbound`. -/
def edgeCandidates (s : Datastore) (vq : VertexQuery) (dir : EdgeDirection)
    (type_filter : Option Str) : List (EdgeKey × DateTimeU) :=
  match dir with
  | .outbound => outboundStream s.edges type_filter (get_vertex_values_by_query s vq)
  | .inbound => inboundStream s.edges type_filter
      ((get_vertex_values_by_query s vq).map (fun p => p.1))

/-- C8: in both edge-pipe directions, evaluation equals the candidate
scan filtered by the timestamp predicate and truncated at the limit —
the timestamp filters act as *continue* predicates (a `filter`, never a
scan-terminating `takeWhile`) — and the timestamp predicate keeps an
edge exactly when `low_filter ≤ created_datetime ≤ high_filter`, each
bound inclusive and only constraining when present. -/
theorem c8_timestamp_filters :
    (∀ (s : Datastore) (vq : VertexQuery) (dir : EdgeDirection) (tf : Option Str)
      (hf lf : Option DateTimeU) (limit : Nat),
      get_edge_values_by_query s (.pipe vq dir tf hf lf limit) =
        ((edgeCandidates s vq dir tf).filter
          (fun q => tsKeep hf lf q.2)).take limit) ∧
    (∀ (hf lf : Option DateTimeU) (ts : DateTimeU),
      tsKeep hf lf ts = true ↔
        ((∀ h : DateTimeU, hf = some h → ts ≤ h) ∧
         (∀ l : DateTimeU, lf = some l → l ≤ ts))) := by
  constructor
  · intro s vq dir tf hf lf limit
    cases dir with
    | outbound => rw [edge_pipe_outbound_eq]; rfl
    | inbound =>
      rw [edge_pipe_inbound_eq, edgeCandidates, inboundStream, List.filter_filter]
      congr 1
      refine List.filter_congr ?_
      intro q _
      cases hq : tsKeep hf lf q.2 <;> simp [hq]
  · intro hf lf ts
    cases hf <;> cases lf <;> simp [tsKeep]

/-- Example state for C9: vertices `1` and `2`, a single edge
`(1,"x",2)`. -/
def c9State : Datastore :=
  { edge_properties := []
    edges := [(⟨1, ['x'], 2⟩, ⟨0, 0⟩)]
    vertex_properties := []
    vertices := [(1, ['u']), (2, ['u'])] }

/-- A `filter` distributes into a `flatMap` segment by segment. -/
theorem filter_flatMap_eq {A B : Type} (l : List A) (f : A → List B) (P : B → Bool) :
    (l.flatMap f).filter P = l.flatMap (fun x => (f x).filter P) := by
  induction l with
  | nil => rfl
  | cons a t ih => simp [List.flatMap_cons, List.filter_append, ih]

/-- The matching outbound contribution of one source vertex `id`: its
bounded range-scan segment, restricted by the timestamp filters. -/
def outboundMatches (edges : List (EdgeKey × DateTimeU)) (type_filter : Option Str)
    (high_filter low_filter : Option DateTimeU) (id : Uuid) :
    List (EdgeKey × DateTimeU) :=
  ((mrange edges (scanLowerBound id type_filter)).takeWhile
    (outKeep id type_filter)).filter (fun r => tsKeep high_filter low_filter r.2)

theorem mem_outboundMatches_outbound_id {edges : List (EdgeKey × DateTimeU)}
    {type_filter : Option Str} {high_filter low_filter : Option DateTimeU}
    {id : Uuid} {q : EdgeKey × DateTimeU}
    (h : q ∈ outboundMatches edges type_filter high_filter low_filter id) :
    q.1.outbound_id = id := by
  have hkeep := List.mem_takeWhile_imp (List.mem_filter.mp h).1
  rw [outKeep, Bool.and_eq_true, decide_eq_true_eq] at hkeep
  exact hkeep.1

/-- The universal multiplicity law of the outbound scan: each occurrence
of a source id among the inner vertex-query rows contributes one full
copy of that source's matching segment, so an edge occurs
(source-multiplicity × segment-multiplicity) times in the candidate
stream. -/
theorem count_outboundStream_filter (edges : List (EdgeKey × DateTimeU))
    (type_filter : Option Str) (high_filter low_filter : Option DateTimeU)
    (q : EdgeKey × DateTimeU) (vvs : List (Uuid × Str)) :
    ((outboundStream edges type_filter vvs).filter
      (fun r => tsKeep high_filter low_filter r.2)).count q =
      (vvs.map (fun p => p.1)).count q.1.outbound_id *
        (outboundMatches edges type_filter high_filter low_filter
          q.1.outbound_id).count q := by
  rw [outboundStream, filter_flatMap_eq]
  induction vvs with
  | nil => simp
  | cons p rest ih =>
    rw [List.flatMap_cons, List.count_append, ih, List.map_cons, List.count_cons]
    by_cases hp : p.1 = q.1.outbound_id
    · rw [show ((mrange edges (scanLowerBound p.1 type_filter)).takeWhile
          (outKeep p.1 type_filter)).filter (fun r => tsKeep high_filter low_filter r.2) =
          outboundMatches edges type_filter high_filter low_filter q.1.outbound_id by
        rw [outboundMatches, hp]]
      rw [if_pos (by simpa using hp)]
      ring
    · have hzero : (((mrange edges (scanLowerBound p.1 type_filter)).takeWhile
          (outKeep p.1 type_filter)).filter
            (fun r => tsKeep high_filter low_filter r.2)).count q = 0 := by
        rw [List.count_eq_zero]
        intro hq
        exact hp (mem_outboundMatches_outbound_id hq).symm
      rw [hzero, if_neg (by simpa using fun h => hp h)]
      ring

/-- On a sorted edge map each edge entry occurs at most once in any
source's matching segment — the scan re-emits edges only across
repeated source rows, never within one. -/
theorem count_le_one_of_pairwise_ne {A : Type} [BEq A] [LawfulBEq A]
    {l : List A} (h : l.Pairwise (fun a b => a ≠ b)) (a : A) : l.count a ≤ 1 := by
  induction l with
  | nil => simp
  | cons b t ih =>
    have h' := List.pairwise_cons.mp h
    rw [List.count_cons]
    by_cases hb : b == a
    · have hba : b = a := eq_of_beq hb
      have hnot : a ∉ t := fun hm => h'.1 a hm (hba ▸ rfl)
      rw [List.count_eq_zero.mpr hnot, if_pos hb]
    · rw [if_neg hb, Nat.add_zero]
      exact ih h'.2

theorem count_outboundMatches_le_one {edges : List (EdgeKey × DateTimeU)}
    (hs : msorted edges) (type_filter : Option Str)
    (high_filter low_filter : Option DateTimeU) (id : Uuid)
    (q : EdgeKey × DateTimeU) :
    (outboundMatches edges type_filter high_filter low_filter id).count q ≤ 1 := by
  have hpair : (((mrange edges (scanLowerBound id type_filter)).takeWhile
      (outKeep id type_filter))).Pairwise (fun a b => a.1 < b.1) :=
    hs.sublist ((List.takeWhile_sublist _).trans (List.dropWhile_sublist _))
  have hnd : (((mrange edges (scanLowerBound id type_filter)).takeWhile
      (outKeep id type_filter))).Pairwise (fun a b => a ≠ b) :=
    hpair.imp (fun hab he => absurd (he ▸ hab) (lt_irrefl _))
  exact count_le_one_of_pairwise_ne (hnd.filter _) q

/-- C9 (duplicate-handling asymmetry of the two pipe directions): an
inbound pipe emits its results in strictly ascending `EdgeKey` order —
so each matching edge appears at most once, however often the inner
vertex query repeats a vertex — while an outbound pipe re-scans per
source row: whenever the limit does not truncate, an edge occurs in the
result exactly (number of inner-result rows carrying its outbound id) ×
(its multiplicity in that source's matching segment), the latter at most
1 on a sorted store — i.e. an inner result repeating a vertex id `k`
times contributes each of that vertex's matching outbound edges `k`
times.  The two concrete conjuncts illustrate both directions on
`c9State` with the duplicated inner results `[1, 1]` and `[2, 2]`. -/
theorem c9_direction_duplicate_asymmetry :
    (∀ (s : Datastore) (vq : VertexQuery) (tf : Option Str)
      (hf lf : Option DateTimeU) (limit : Nat), s.sorted →
      (get_edge_values_by_query s (.pipe vq .inbound tf hf lf limit)).Pairwise
        (fun a b => a.1 < b.1)) ∧
    (∀ (s : Datastore) (vq : VertexQuery) (tf : Option Str)
      (hf lf : Option DateTimeU) (limit : Nat) (q : EdgeKey × DateTimeU),
      ((outboundStream s.edges tf (get_vertex_values_by_query s vq)).filter
        (fun r => tsKeep hf lf r.2)).length ≤ limit →
      (get_edge_values_by_query s (.pipe vq .outbound tf hf lf limit)).count q =
        ((get_vertex_values_by_query s vq).map (fun p => p.1)).count q.1.outbound_id *
          (outboundMatches s.edges tf hf lf q.1.outbound_id).count q) ∧
    (∀ (s : Datastore) (tf : Option Str) (hf lf : Option DateTimeU)
      (id : Uuid) (q : EdgeKey × DateTimeU), s.sorted →
      (outboundMatches s.edges tf hf lf id).count q ≤ 1) ∧
    get_edge_values_by_query c9State
      (.pipe (.vertices [1, 1]) .outbound none none none 10) =
      [(⟨1, ['x'], 2⟩, ⟨0, 0⟩), (⟨1, ['x'], 2⟩, ⟨0, 0⟩)] ∧
    get_edge_values_by_query c9State
      (.pipe (.vertices [2, 2]) .inbound none none none 10) =
      [(⟨1, ['x'], 2⟩, ⟨0, 0⟩)] := by
  refine ⟨?_, ?_, ?_, by decide, by decide⟩
  · intro s vq tf hf lf limit hs
    rw [edge_pipe_inbound_eq]
    exact hs.2.1.sublist ((List.take_sublist _ _).trans (List.filter_sublist _))
  · intro s vq tf hf lf limit q hlen
    rw [edge_pipe_outbound_eq, List.take_of_length_le hlen,
      count_outboundStream_filter]
  · intro s tf hf lf id q hs
    exact count_outboundMatches_le_one hs.2.1 tf hf lf id q

/-- Witness for C9: the three universally quantified conjuncts
instantiated on the concrete sorted state `c9State`: the inbound result
is key-ascending, and with the duplicated inner result `[1, 1]` the
outbound count of the edge `(1,"x",2)` is the source multiplicity (2)
times its segment multiplicity, which is at most 1. -/
theorem c9_direction_duplicate_asymmetry_witness :
    (get_edge_values_by_query c9State
      (.pipe (.vertices [2, 2]) .inbound none none none 10)).Pairwise
        (fun a b => a.1 < b.1) ∧
    (get_edge_values_by_query c9State
      (.pipe (.vertices [1, 1]) .outbound none none none 10)).count
        (⟨1, ['x'], 2⟩, ⟨0, 0⟩) =
      ((get_vertex_values_by_query c9State (.vertices [1, 1])).map
        (fun p => p.1)).count 1 *
        (outboundMatches c9State.edges none none none 1).count
          (⟨1, ['x'], 2⟩, ⟨0, 0⟩) ∧
    (outboundMatches c9State.edges none none none 1).count
      (⟨1, ['x'], 2⟩, ⟨0, 0⟩) ≤ 1 :=
  ⟨c9_direction_duplicate_asymmetry.1 c9State (.vertices [2, 2]) none none none 10
    (by decide),
   c9_direction_duplicate_asymmetry.2.1 c9State (.vertices [1, 1]) none none none 10
    (⟨1, ['x'], 2⟩, ⟨0, 0⟩) (by decide),
   c9_direction_duplicate_asymmetry.2.2.1 c9State none none none 1
    (⟨1, ['x'], 2⟩, ⟨0, 0⟩) (by decide)⟩

/-! ## Contiguity of composite-key ranges (the sandwich property behind
`range(..)` + `take_while`/`break` scans over a sorted map) -/

theorem takeWhile_eq_filter_of_ge {K V : Type} [LinearOrder K]
    {l : List (K × V)} (hs : msorted l) {lb : K} {m : K × V → Bool}
    (hge : ∀ p ∈ l, lb ≤ p.1)
    (h2 : ∀ p q : K × V, lb ≤ p.1 → p.1 ≤ q.1 → m q = true → m p = true) :
    l.takeWhile m = l.filter m := by
  induction l with
  | nil => rfl
  | cons a t ih =>
    have hs' := List.pairwise_cons.mp hs
    by_cases hm : m a
    · rw [List.takeWhile_cons_of_pos hm, List.filter_cons_of_pos hm,
        ih hs'.2 (fun p hp => hge p (List.mem_cons_of_mem a hp))]
    · rw [List.takeWhile_cons_of_neg (by simpa using hm)]
      refine (List.filter_eq_nil_iff.mpr ?_).symm
      intro q hq hmq
      rcases List.mem_cons.mp hq with rfl | hqt
      · exact hm hmq
      · exact hm (h2 a q (hge a (List.mem_cons_self a t))
          (le_of_lt (hs'.1 q hqt)) hmq)

theorem takeWhile_mrange_eq_filter {K V : Type} [LinearOrder K]
    {l : List (K × V)} (hs : msorted l) {lb : K} {m : K × V → Bool}
    (h1 : ∀ p : K × V, m p = true → lb ≤ p.1)
    (h2 : ∀ p q : K × V, lb ≤ p.1 → p.1 ≤ q.1 → m q = true → m p = true) :
    (mrange l lb).takeWhile m = l.filter m := by
  induction l with
  | nil => rfl
  | cons a t ih =>
    have hs' := List.pairwise_cons.mp hs
    by_cases ha : a.1 < lb
    · have hnm : ¬ m a = true := fun hm => absurd (h1 a hm) (not_le.mpr ha)
      rw [mrange, List.dropWhile_cons_of_pos (by simpa using ha),
        List.filter_cons_of_neg (by simpa using hnm)]
      exact ih hs'.2
    · rw [mrange, List.dropWhile_cons_of_neg (by simpa using ha)]
      refine takeWhile_eq_filter_of_ge hs ?_ h2
      intro p hp
      rcases List.mem_cons.mp hp with rfl | hpt
      · exact not_lt.mp ha
      · exact le_trans (not_lt.mp ha) (le_of_lt (hs'.1 p hpt))

theorem typeMatch_some (tf t' : Str) : typeMatch (some tf) t' = decide (t' = tf) := rfl

theorem tsKeep_none_none (ts : DateTimeU) : tsKeep none none ts = true := rfl

theorem filter_tsKeep_none (l : List (EdgeKey × DateTimeU)) :
    l.filter (fun q => tsKeep none none q.2) = l := by
  rw [show (fun q : EdgeKey × DateTimeU => tsKeep none none q.2) = fun _ => true from
    rfl]
  exact List.filter_true l

/-- `get_vertex_values_by_query` on a singleton `Vertices` query. -/
theorem vertex_values_single (s : Datastore) (v : Uuid) :
    get_vertex_values_by_query s (.vertices [v]) =
      match mlookup s.vertices v with
      | some tv => [(v, tv)]
      | none => [] := by
  cases h : mlookup s.vertices v <;>
    simp [get_vertex_values_by_query, hydrateVertices, h]

theorem get_edge_count_outbound_some (s : Datastore) (v : Uuid) (t : Str) :
    get_edge_count s v (some t) .outbound =
      ((mrange s.edges ⟨v, t, 0⟩).takeWhile
        (fun p => decide (p.1.outbound_id = v) && decide (p.1.t = t))).length := rfl

theorem get_edge_count_inbound_some (s : Datastore) (v : Uuid) (t : Str) :
    get_edge_count s v (some t) .inbound =
      (s.edges.filter
        (fun p => decide (p.1.inbound_id = v) && decide (p.1.t = t))).length := rfl

theorem outKeep_some (v : Uuid) (t : Str) :
    outKeep v (some t) =
      fun q : EdgeKey × DateTimeU =>
        decide (q.1.outbound_id = v) && decide (q.1.t = t) := rfl

theorem scan_h1 (v : Uuid) (t : Str) :
    ∀ p : EdgeKey × DateTimeU,
      (decide (p.1.outbound_id = v) && decide (p.1.t = t)) = true →
      (⟨v, t, 0⟩ : EdgeKey) ≤ p.1 := by
  intro p hp
  simp only [Bool.and_eq_true, decide_eq_true_eq] at hp
  rw [edgeKey_le_def]
  exact Or.inr ⟨hp.1.symm, Or.inr ⟨hp.2.symm, Nat.zero_le _⟩⟩

theorem scan_h2 (v : Uuid) (t : Str) :
    ∀ p q : EdgeKey × DateTimeU,
      (⟨v, t, 0⟩ : EdgeKey) ≤ p.1 → p.1 ≤ q.1 →
      (decide (q.1.outbound_id = v) && decide (q.1.t = t)) = true →
      (decide (p.1.outbound_id = v) && decide (p.1.t = t)) = true := by
  intro p q hlb hpq hq
  simp only [Bool.and_eq_true, decide_eq_true_eq] at hq ⊢
  obtain ⟨hqo, hqt⟩ := hq
  rw [edgeKey_le_def] at hlb hpq
  rw [hqo, hqt] at hpq
  rcases hlb with h | ⟨ho, hrest⟩
  · rcases hpq with h' | ⟨h', _⟩
    · exact absurd (lt_trans h h') (lt_irrefl v)
    · rw [h'] at h
      exact absurd h (lt_irrefl v)
  · refine ⟨ho.symm, ?_⟩
    rcases hpq with h' | ⟨_, h''⟩
    · rw [← ho] at h'
      exact absurd h' (lt_irrefl v)
    · rcases hrest with ht | ⟨ht, _⟩
      · rcases h'' with h3 | ⟨h3, _⟩
        · exact absurd (lt_trans ht h3) (lt_irrefl t)
        · rw [h3] at ht
          exact absurd ht (lt_irrefl t)
      · exact ht.symm

/-- C4: on a referentially consistent store, `get_edge_count(v, Some(t),
dir)` equals the length of `get_edges` on the `EdgeQuery::Pipe` built
from `VertexQuery::Vertices{[v]}` with the same direction and type
filter, no timestamp filters and `limit = u32::MAX`, whenever the true
count fits in a `u32`.  (`Datastore.sorted` is the `BTreeMap`
representation invariant, which holds of every real store.) -/
theorem c4_edge_count_refines_pipe (s : Datastore) (hs : s.sorted)
    (hc : consistent s) (v : Uuid) (t : Str) (dir : EdgeDirection)
    (hcount : get_edge_count s v (some t) dir ≤ 4294967295) :
    get_edge_count s v (some t) dir =
      (get_edges s (.pipe (.vertices [v]) dir (some t) none none 4294967295)).length := by
  have hsE : msorted s.edges := hs.2.1
  rw [get_edges, List.length_map]
  cases dir with
  | outbound =>
    rw [get_edge_count_outbound_some] at hcount ⊢
    rw [takeWhile_mrange_eq_filter hsE (scan_h1 v t) (scan_h2 v t)] at hcount ⊢
    rw [edge_pipe_outbound_eq, filter_tsKeep_none, vertex_values_single]
    cases hv : mlookup s.vertices v with
    | some tv =>
      have hstream : outboundStream s.edges (some t) [(v, tv)] =
          (mrange s.edges (scanLowerBound v (some t))).takeWhile (outKeep v (some t)) := by
        simp [outboundStream]
      rw [hstream, show scanLowerBound v (some t) = (⟨v, t, 0⟩ : EdgeKey) from rfl,
        outKeep_some, takeWhile_mrange_eq_filter hsE (scan_h1 v t) (scan_h2 v t),
        List.length_take]
      exact (Nat.min_eq_right hcount).symm
    | none =>
      have hnil : s.edges.filter
          (fun p => decide (p.1.outbound_id = v) && decide (p.1.t = t)) = [] := by
        refine List.filter_eq_nil_iff.mpr ?_
        intro p hp hmp
        simp only [Bool.and_eq_true, decide_eq_true_eq] at hmp
        have := (hc.1 p hp).1
        rw [hmp.1, hv] at this
        simp at this
      rw [hnil]
      simp [outboundStream]
  | inbound =>
    rw [get_edge_count_inbound_some] at hcount ⊢
    rw [edge_pipe_inbound_eq, vertex_values_single]
    cases hv : mlookup s.vertices v with
    | some tv =>
      have hfe : s.edges.filter (fun q =>
          ([(v, tv)].map (fun p => p.1)).contains q.1.inbound_id &&
          typeMatch (some t) q.1.t && tsKeep none none q.2) =
          s.edges.filter (fun p => decide (p.1.inbound_id = v) && decide (p.1.t = t)) := by
        refine List.filter_congr ?_
        intro q _
        by_cases h1 : q.1.inbound_id = v <;> by_cases h2 : q.1.t = t <;>
          simp [h1, h2, tsKeep, typeMatch]
      rw [hfe, List.length_take]
      exact (Nat.min_eq_right hcount).symm
    | none =>
      have hnil : s.edges.filter
          (fun p => decide (p.1.inbound_id = v) && decide (p.1.t = t)) = [] := by
        refine List.filter_eq_nil_iff.mpr ?_
        intro p hp hmp
        simp only [Bool.and_eq_true, decide_eq_true_eq] at hmp
        have := (hc.1 p hp).2
        rw [hmp.1, hv] at this
        simp at this
      rw [hnil]
      have hfe : s.edges.filter (fun q =>
          (([] : List (Uuid × Str)).map (fun p => p.1)).contains q.1.inbound_id &&
          typeMatch (some t) q.1.t && tsKeep none none q.2) = [] := by
        refine List.filter_eq_nil_iff.mpr ?_
        intro p _ hmp
        simp at hmp
      rw [hfe]
      rfl

/-- Witness for C4: on the concrete sorted, consistent store `c9State`,
the outbound count for vertex `1` and type `"x"` (namely `1`) matches the
pipe-query result length. -/
theorem c4_edge_count_refines_pipe_witness :
    get_edge_count c9State 1 (some ['x']) .outbound =
      (get_edges c9State
        (.pipe (.vertices [1]) .outbound (some ['x']) none none 4294967295)).length :=
  c4_edge_count_refines_pipe c9State (by decide) (by decide) 1 ['x'] .outbound (by decide)

/-! ## Query results are drawn from the store

Every `(key, value)` pair a query evaluator returns is a current entry
of the corresponding map.  These facts feed the preservation proofs of
the referential-consistency invariant (C2). -/

theorem lookupEdges_mem {edges : List (EdgeKey × DateTimeU)} {keys : List EdgeKey}
    {p : EdgeKey × DateTimeU} (h : p ∈ lookupEdges edges keys) :
    mlookup edges p.1 = some p.2 := by
  induction keys with
  | nil => simp [lookupEdges] at h
  | cons k rest ih =>
    rw [lookupEdges] at h
    cases hk : mlookup edges k with
    | none =>
      rw [hk] at h
      exact ih h
    | some ts =>
      rw [hk] at h
      rcases List.mem_cons.mp h with rfl | ht
      · exact hk
      · exact ih ht

theorem hydrateVertices_mem {vs : List (Uuid × Str)} {ids : List Uuid}
    {p : Uuid × Str} (h : p ∈ hydrateVertices vs ids) :
    mlookup vs p.1 = some p.2 := by
  induction ids with
  | nil => simp [hydrateVertices] at h
  | cons id rest ih =>
    rw [hydrateVertices] at h
    cases hk : mlookup vs id with
    | none =>
      rw [hk] at h
      exact ih h
    | some t =>
      rw [hk] at h
      rcases List.mem_cons.mp h with rfl | ht
      · exact hk
      · exact ih ht

theorem get_vertex_values_mem {s : Datastore} (hs : msorted s.vertices)
    {q : VertexQuery} {p : Uuid × Str}
    (h : p ∈ get_vertex_values_by_query s q) : mlookup s.vertices p.1 = some p.2 := by
  cases q with
  | all start_id limit =>
    cases start_id with
    | none =>
      simp only [get_vertex_values_by_query] at h
      exact mem_mlookup hs ((List.take_sublist _ _).mem h)
    | some u =>
      simp only [get_vertex_values_by_query] at h
      exact mem_mlookup hs (mrange_subset ((List.take_sublist _ _).mem h))
  | vertices ids =>
    simp only [get_vertex_values_by_query] at h
    exact hydrateVertices_mem h
  | pipe eq conv limit =>
    simp only [get_vertex_values_by_query] at h
    exact hydrateVertices_mem h

theorem outboundStream_mem {edges : List (EdgeKey × DateTimeU)} {tf : Option Str}
    {vvs : List (Uuid × Str)} {p : EdgeKey × DateTimeU}
    (h : p ∈ outboundStream edges tf vvs) : p ∈ edges := by
  rw [outboundStream] at h
  obtain ⟨src, _, hmem⟩ := List.mem_flatMap.mp h
  exact mrange_subset ((List.takeWhile_sublist _).mem hmem)

theorem get_edge_values_mem {s : Datastore} (hs : msorted s.edges)
    {q : EdgeQuery} {p : EdgeKey × DateTimeU}
    (h : p ∈ get_edge_values_by_query s q) : mlookup s.edges p.1 = some p.2 := by
  cases q with
  | edges keys =>
    simp only [get_edge_values_by_query] at h
    exact lookupEdges_mem h
  | pipe vq conv tf hf lf limit =>
    cases conv with
    | outbound =>
      rw [edge_pipe_outbound_eq] at h
      exact mem_mlookup hs (outboundStream_mem
        ((List.filter_sublist _).mem ((List.take_sublist _ _).mem h)))
    | inbound =>
      rw [edge_pipe_inbound_eq] at h
      exact mem_mlookup hs
        ((List.filter_sublist _).mem ((List.take_sublist _ _).mem h))

/-! ## Fold helpers for the property upsert/delete loops -/

section FoldHelpers

variable {K : Type} {V : Type} [LinearOrder K] {A : Type}

theorem mem_foldl_minsert {f : A → K} {v : V} {l : List A} {m0 : List (K × V)}
    {p : K × V} (h : p ∈ l.foldl (fun m x => minsert (f x) v m) m0) :
    p ∈ m0 ∨ ∃ x ∈ l, p.1 = f x := by
  induction l generalizing m0 with
  | nil => exact Or.inl h
  | cons a rest ih =>
    rw [List.foldl_cons] at h
    rcases ih h with hm | ⟨x, hx, hfx⟩
    · rcases mem_minsert hm with rfl | hold
      · exact Or.inr ⟨a, by simp, rfl⟩
      · exact Or.inl hold
    · exact Or.inr ⟨x, by simp [hx], hfx⟩

theorem msorted_foldl_minsert {f : A → K} {v : V} {l : List A} {m0 : List (K × V)}
    (hs : msorted m0) : msorted (l.foldl (fun m x => minsert (f x) v m) m0) := by
  induction l generalizing m0 with
  | nil => exact hs
  | cons a rest ih => exact ih (msorted_minsert hs _ _)

theorem mem_foldl_merase {f : A → K} {l : List A} {m0 : List (K × V)}
    {p : K × V} (h : p ∈ l.foldl (fun m x => merase (f x) m) m0) : p ∈ m0 := by
  induction l generalizing m0 with
  | nil => exact h
  | cons a rest ih => exact merase_subset (ih h)

theorem msorted_foldl_merase {f : A → K} {l : List A} {m0 : List (K × V)}
    (hs : msorted m0) : msorted (l.foldl (fun m x => merase (f x) m) m0) := by
  induction l generalizing m0 with
  | nil => exact hs
  | cons a rest ih => exact ih (msorted_merase hs _)

end FoldHelpers

/-! ## Characterising cascading deletion -/

theorem ep_scan_h1 (k : EdgeKey) :
    ∀ p : EPKey × JsonValue, decide (p.1.key = k) = true → (⟨k, []⟩ : EPKey) ≤ p.1 := by
  intro p hp
  rw [decide_eq_true_eq] at hp
  rw [epKey_le_def]
  exact Or.inr ⟨hp.symm, Str.nil_le _⟩

theorem ep_scan_h2 (k : EdgeKey) :
    ∀ p q : EPKey × JsonValue, (⟨k, []⟩ : EPKey) ≤ p.1 → p.1 ≤ q.1 →
      decide (q.1.key = k) = true → decide (p.1.key = k) = true := by
  intro p q hlb hpq hq
  rw [decide_eq_true_eq] at hq
  rw [decide_eq_true_eq]
  rw [epKey_le_def] at hlb hpq
  rw [hq] at hpq
  rcases hlb with h | ⟨h, _⟩
  · rcases hpq with h' | ⟨h', _⟩
    · exact absurd (lt_trans h h') (lt_irrefl k)
    · rw [h'] at h
      exact absurd h (lt_irrefl k)
  · exact h.symm

theorem vp_scan_h1 (v : Uuid) :
    ∀ p : VPKey × JsonValue, decide (p.1.id = v) = true → (⟨v, []⟩ : VPKey) ≤ p.1 := by
  intro p hp
  rw [decide_eq_true_eq] at hp
  rw [vpKey_le_def]
  exact Or.inr ⟨hp.symm, Str.nil_le _⟩

theorem vp_scan_h2 (v : Uuid) :
    ∀ p q : VPKey × JsonValue, (⟨v, []⟩ : VPKey) ≤ p.1 → p.1 ≤ q.1 →
      decide (q.1.id = v) = true → decide (p.1.id = v) = true := by
  intro p q hlb hpq hq
  rw [decide_eq_true_eq] at hq
  rw [decide_eq_true_eq]
  rw [vpKey_le_def] at hlb hpq
  rw [hq] at hpq
  rcases hlb with h | ⟨h, _⟩
  · rcases hpq with h' | ⟨h', _⟩
    · exact absurd (lt_trans h h') (lt_irrefl v)
    · rw [h'] at h
      exact absurd h (lt_irrefl v)
  · exact h.symm

theorem deleteEdgeStep_vertices (s : Datastore) (k : EdgeKey) :
    (deleteEdgeStep s k).vertices = s.vertices := rfl

theorem deleteEdgeStep_vertex_properties (s : Datastore) (k : EdgeKey) :
    (deleteEdgeStep s k).vertex_properties = s.vertex_properties := rfl

theorem deleteEdgeStep_edges_eq (s : Datastore) (k : EdgeKey) :
    (deleteEdgeStep s k).edges = merase k s.edges := rfl

theorem deleteEdgeStep_edges {s : Datastore} (hs : msorted s.edges) (k k' : EdgeKey) :
    mlookup (deleteEdgeStep s k).edges k' =
      if k' = k then none else mlookup s.edges k' := by
  rw [deleteEdgeStep_edges_eq]
  by_cases h : k' = k
  · subst h
    rw [if_pos rfl]
    exact mlookup_merase_self hs k'
  · rw [if_neg h]
    exact mlookup_merase_ne s.edges h

theorem deleteEdgeStep_edge_properties {s : Datastore}
    (hsp : msorted s.edge_properties) (k : EdgeKey) (p : EPKey) :
    mlookup (deleteEdgeStep s k).edge_properties p =
      if p.key = k then none else mlookup s.edge_properties p := by
  have hfilter : ((mrange s.edge_properties ⟨k, []⟩).takeWhile
      (fun q => decide (q.1.key = k))) =
      s.edge_properties.filter (fun q => decide (q.1.key = k)) :=
    takeWhile_mrange_eq_filter hsp (ep_scan_h1 k) (ep_scan_h2 k)
  show mlookup (eraseAll (((mrange s.edge_properties ⟨k, []⟩).takeWhile
      (fun q => decide (q.1.key = k))).map (fun q => q.1)) s.edge_properties) p = _
  rw [hfilter]
  by_cases h : p.key = k
  · rw [if_pos h]
    cases hl : mlookup s.edge_properties p with
    | none => exact mlookup_eraseAll_none hsp hl _
    | some v =>
      refine mlookup_eraseAll_of_mem hsp ?_
      refine List.mem_map.mpr ⟨(p, v), ?_, rfl⟩
      exact List.mem_filter.mpr ⟨mlookup_mem hl, by simpa using h⟩
  · rw [if_neg h]
    refine mlookup_eraseAll_of_not_mem _ ?_
    intro hmem
    obtain ⟨q, hq, hq1⟩ := List.mem_map.mp hmem
    have := (List.mem_filter.mp hq).2
    rw [decide_eq_true_eq] at this
    exact h (hq1 ▸ this)

theorem deleteEdgeStep_sorted {s : Datastore} (hs : s.sorted) (k : EdgeKey) :
    (deleteEdgeStep s k).sorted :=
  ⟨msorted_eraseAll hs.1 _, msorted_merase hs.2.1 k, hs.2.2.1, hs.2.2.2⟩

theorem delete_edges_internal_vertices (s : Datastore) (ks : List EdgeKey) :
    (delete_edges_internal s ks).vertices = s.vertices := by
  induction ks generalizing s with
  | nil => rfl
  | cons k rest ih => exact ih (deleteEdgeStep s k)

theorem delete_edges_internal_vertex_properties (s : Datastore) (ks : List EdgeKey) :
    (delete_edges_internal s ks).vertex_properties = s.vertex_properties := by
  induction ks generalizing s with
  | nil => rfl
  | cons k rest ih => exact ih (deleteEdgeStep s k)

theorem delete_edges_internal_sorted {s : Datastore} (hs : s.sorted)
    (ks : List EdgeKey) : (delete_edges_internal s ks).sorted := by
  induction ks generalizing s with
  | nil => exact hs
  | cons k rest ih => exact ih (deleteEdgeStep_sorted hs k)

theorem delete_edges_internal_edges {s : Datastore} (hs : s.sorted)
    (ks : List EdgeKey) (k' : EdgeKey) :
    mlookup (delete_edges_internal s ks).edges k' =
      if k' ∈ ks then none else mlookup s.edges k' := by
  induction ks generalizing s with
  | nil => simp [delete_edges_internal]
  | cons k rest ih =>
    rw [delete_edges_internal, List.foldl_cons]
    rw [show List.foldl deleteEdgeStep (deleteEdgeStep s k) rest =
      delete_edges_internal (deleteEdgeStep s k) rest from rfl]
    rw [ih (deleteEdgeStep_sorted hs k), deleteEdgeStep_edges hs.2.1 k k']
    by_cases h1 : k' = k
    · subst h1
      by_cases h2 : k' ∈ rest <;> simp [h2]
    · by_cases h2 : k' ∈ rest <;> simp [h1, h2]

theorem delete_edges_internal_edge_properties {s : Datastore} (hs : s.sorted)
    (ks : List EdgeKey) (p : EPKey) :
    mlookup (delete_edges_internal s ks).edge_properties p =
      if p.key ∈ ks then none else mlookup s.edge_properties p := by
  induction ks generalizing s with
  | nil => simp [delete_edges_internal]
  | cons k rest ih =>
    rw [delete_edges_internal, List.foldl_cons]
    rw [show List.foldl deleteEdgeStep (deleteEdgeStep s k) rest =
      delete_edges_internal (deleteEdgeStep s k) rest from rfl]
    rw [ih (deleteEdgeStep_sorted hs k), deleteEdgeStep_edge_properties hs.1 k p]
    by_cases h1 : p.key = k
    · subst h1
      by_cases h2 : p.key ∈ rest <;> simp [h2]
    · by_cases h2 : p.key ∈ rest <;> simp [h1, h2]

/-- The intermediate state of one `delete_vertices` iteration: vertex
removed, its properties removed, edges not yet cascaded. -/
def vertexCascadeState (s : Datastore) (v : Uuid) : Datastore :=
  { s with vertices := merase v s.vertices,
           vertex_properties := eraseAll
             (((mrange s.vertex_properties ⟨v, []⟩).takeWhile
               (fun p => decide (p.1.id = v))).map (fun p => p.1))
             s.vertex_properties }

/-- The edges collected for cascading by one `delete_vertices`
iteration: every edge key naming `v` as either endpoint. -/
def vertexCascadeEdges (s : Datastore) (v : Uuid) : List EdgeKey :=
  (s.edges.filter (fun p =>
    decide (p.1.outbound_id = v) || decide (p.1.inbound_id = v))).map (fun p => p.1)

theorem deleteVertexStep_eq (s : Datastore) (v : Uuid) :
    deleteVertexStep s v =
      delete_edges_internal (vertexCascadeState s v) (vertexCascadeEdges s v) := rfl

theorem vertexCascadeState_sorted {s : Datastore} (hs : s.sorted) (v : Uuid) :
    (vertexCascadeState s v).sorted :=
  ⟨hs.1, hs.2.1, msorted_eraseAll hs.2.2.1 _, msorted_merase hs.2.2.2 v⟩

theorem deleteVertexStep_sorted {s : Datastore} (hs : s.sorted) (v : Uuid) :
    (deleteVertexStep s v).sorted := by
  rw [deleteVertexStep_eq]
  exact delete_edges_internal_sorted (vertexCascadeState_sorted hs v) _

theorem mem_vertexCascadeEdges {s : Datastore} {v : Uuid} {k : EdgeKey}
    (h : k ∈ vertexCascadeEdges s v) :
    (k.outbound_id = v ∨ k.inbound_id = v) ∧ ∃ ts, (k, ts) ∈ s.edges := by
  obtain ⟨q, hq, hq1⟩ := List.mem_map.mp h
  have hpred := (List.mem_filter.mp hq).2
  rw [Bool.or_eq_true, decide_eq_true_eq, decide_eq_true_eq] at hpred
  subst hq1
  exact ⟨hpred, q.2, by simpa using (List.mem_filter.mp hq).1⟩

theorem vertexCascadeEdges_complete {s : Datastore} {v : Uuid} {k : EdgeKey}
    {ts : DateTimeU} (hmem : (k, ts) ∈ s.edges)
    (hk : k.outbound_id = v ∨ k.inbound_id = v) : k ∈ vertexCascadeEdges s v :=
  List.mem_map.mpr ⟨(k, ts),
    List.mem_filter.mpr ⟨hmem, by rcases hk with hk | hk <;> simp [hk]⟩, rfl⟩

theorem deleteVertexStep_vertices {s : Datastore} (hs : msorted s.vertices)
    (v u : Uuid) :
    mlookup (deleteVertexStep s v).vertices u =
      if u = v then none else mlookup s.vertices u := by
  rw [deleteVertexStep_eq, delete_edges_internal_vertices]
  show mlookup (merase v s.vertices) u = _
  by_cases h : u = v
  · subst h
    rw [if_pos rfl]
    exact mlookup_merase_self hs u
  · rw [if_neg h]
    exact mlookup_merase_ne s.vertices h

theorem deleteVertexStep_vertex_properties {s : Datastore}
    (hsvp : msorted s.vertex_properties) (v : Uuid) (p : VPKey) :
    mlookup (deleteVertexStep s v).vertex_properties p =
      if p.id = v then none else mlookup s.vertex_properties p := by
  rw [deleteVertexStep_eq, delete_edges_internal_vertex_properties]
  have hfilter : ((mrange s.vertex_properties ⟨v, []⟩).takeWhile
      (fun q => decide (q.1.id = v))) =
      s.vertex_properties.filter (fun q => decide (q.1.id = v)) :=
    takeWhile_mrange_eq_filter hsvp (vp_scan_h1 v) (vp_scan_h2 v)
  show mlookup (eraseAll _ s.vertex_properties) p = _
  rw [hfilter]
  by_cases h : p.id = v
  · rw [if_pos h]
    cases hl : mlookup s.vertex_properties p with
    | none => exact mlookup_eraseAll_none hsvp hl _
    | some w =>
      refine mlookup_eraseAll_of_mem hsvp ?_
      refine List.mem_map.mpr ⟨(p, w), ?_, rfl⟩
      exact List.mem_filter.mpr ⟨mlookup_mem hl, by simpa using h⟩
  · rw [if_neg h]
    refine mlookup_eraseAll_of_not_mem _ ?_
    intro hmem
    obtain ⟨q, hq, hq1⟩ := List.mem_map.mp hmem
    have := (List.mem_filter.mp hq).2
    rw [decide_eq_true_eq] at this
    exact h (hq1 ▸ this)

theorem deleteVertexStep_edges {s : Datastore} (hs : s.sorted) (v : Uuid)
    (k : EdgeKey) :
    mlookup (deleteVertexStep s v).edges k =
      if k.outbound_id = v ∨ k.inbound_id = v then none else mlookup s.edges k := by
  rw [deleteVertexStep_eq,
    delete_edges_internal_edges (vertexCascadeState_sorted hs v)]
  show (if k ∈ vertexCascadeEdges s v then none else mlookup s.edges k) = _
  by_cases hk : k.outbound_id = v ∨ k.inbound_id = v
  · rw [if_pos hk]
    cases hl : mlookup s.edges k with
    | none =>
      by_cases hmem : k ∈ vertexCascadeEdges s v <;> simp [hmem, hl]
    | some ts =>
      rw [if_pos (vertexCascadeEdges_complete (mlookup_mem hl) hk)]
  · rw [if_neg hk, if_neg (fun hmem => hk (mem_vertexCascadeEdges hmem).1)]

theorem deleteVertexStep_edge_properties {s : Datastore} (hs : s.sorted)
    (hc : consistent s) (v : Uuid) (p : EPKey) :
    mlookup (deleteVertexStep s v).edge_properties p =
      if p.key.outbound_id = v ∨ p.key.inbound_id = v then none
      else mlookup s.edge_properties p := by
  rw [deleteVertexStep_eq,
    delete_edges_internal_edge_properties (vertexCascadeState_sorted hs v)]
  show (if p.key ∈ vertexCascadeEdges s v then none
    else mlookup s.edge_properties p) = _
  by_cases hk : p.key.outbound_id = v ∨ p.key.inbound_id = v
  · rw [if_pos hk]
    by_cases hmem : p.key ∈ vertexCascadeEdges s v
    · rw [if_pos hmem]
    · rw [if_neg hmem]
      cases hl : mlookup s.edge_properties p with
      | none => rfl
      | some w =>
        exfalso
        have hin := hc.2.2 (p, w) (mlookup_mem hl)
        rw [Option.isSome_iff_exists] at hin
        obtain ⟨ts, hts⟩ := hin
        exact hmem (vertexCascadeEdges_complete (mlookup_mem hts) hk)
  · rw [if_neg hk, if_neg (fun hmem => hk (mem_vertexCascadeEdges hmem).1)]

theorem deleteVertexStep_consistent {s : Datastore} (hs : s.sorted)
    (hc : consistent s) (v : Uuid) : consistent (deleteVertexStep s v) := by
  have hs' := deleteVertexStep_sorted hs v
  refine ⟨?_, ?_, ?_⟩
  · intro p hp
    have hl := mem_mlookup hs'.2.1 hp
    rw [deleteVertexStep_edges hs v p.1] at hl
    by_cases hk : p.1.outbound_id = v ∨ p.1.inbound_id = v
    · rw [if_pos hk] at hl
      exact absurd hl (by simp)
    · rw [if_neg hk] at hl
      have hmem := mlookup_mem hl
      have hends := hc.1 p hmem
      push_neg at hk
      constructor
      · rw [deleteVertexStep_vertices hs.2.2.2 v, if_neg hk.1]
        exact hends.1
      · rw [deleteVertexStep_vertices hs.2.2.2 v, if_neg hk.2]
        exact hends.2
  · intro p hp
    have hl := mem_mlookup hs'.2.2.1 hp
    rw [deleteVertexStep_vertex_properties hs.2.2.1 v p.1] at hl
    by_cases hk : p.1.id = v
    · rw [if_pos hk] at hl
      exact absurd hl (by simp)
    · rw [if_neg hk] at hl
      rw [deleteVertexStep_vertices hs.2.2.2 v, if_neg hk]
      exact hc.2.1 p (mlookup_mem hl)
  · intro p hp
    have hl := mem_mlookup hs'.1 hp
    rw [deleteVertexStep_edge_properties hs hc v p.1] at hl
    by_cases hk : p.1.key.outbound_id = v ∨ p.1.key.inbound_id = v
    · rw [if_pos hk] at hl
      exact absurd hl (by simp)
    · rw [if_neg hk] at hl
      rw [deleteVertexStep_edges hs v, if_neg hk]
      exact hc.2.2 p (mlookup_mem hl)

theorem delete_edges_internal_consistent {s : Datastore} (hs : s.sorted)
    (hc : consistent s) (ks : List EdgeKey) :
    consistent (delete_edges_internal s ks) := by
  have hs' := delete_edges_internal_sorted hs ks
  refine ⟨?_, ?_, ?_⟩
  · intro p hp
    have hl := mem_mlookup hs'.2.1 hp
    rw [delete_edges_internal_edges hs ks p.1] at hl
    by_cases hk : p.1 ∈ ks
    · rw [if_pos hk] at hl
      exact absurd hl (by simp)
    · rw [if_neg hk] at hl
      rw [delete_edges_internal_vertices]
      exact hc.1 p (mlookup_mem hl)
  · intro p hp
    rw [delete_edges_internal_vertex_properties] at hp
    rw [delete_edges_internal_vertices]
    exact hc.2.1 p hp
  · intro p hp
    have hl := mem_mlookup hs'.1 hp
    rw [delete_edges_internal_edge_properties hs ks p.1] at hl
    by_cases hk : p.1.key ∈ ks
    · rw [if_pos hk] at hl
      exact absurd hl (by simp)
    · rw [if_neg hk] at hl
      rw [delete_edges_internal_edges hs ks, if_neg hk]
      exact hc.2.2 p (mlookup_mem hl)

theorem delete_vertices_internal_sorted {s : Datastore} (hs : s.sorted)
    (ids : List Uuid) : (delete_vertices_internal s ids).sorted := by
  induction ids generalizing s with
  | nil => exact hs
  | cons v rest ih => exact ih (deleteVertexStep_sorted hs v)

theorem delete_vertices_internal_consistent {s : Datastore} (hs : s.sorted)
    (hc : consistent s) (ids : List Uuid) :
    consistent (delete_vertices_internal s ids) := by
  induction ids generalizing s with
  | nil => exact hc
  | cons v rest ih =>
    exact ih (deleteVertexStep_sorted hs v) (deleteVertexStep_consistent hs hc v)

theorem delete_vertices_internal_vertices_mono {s : Datastore} (hs : s.sorted)
    (ids : List Uuid) {u : Uuid} (h : mlookup s.vertices u = none) :
    mlookup (delete_vertices_internal s ids).vertices u = none := by
  induction ids generalizing s with
  | nil => exact h
  | cons v rest ih =>
    refine ih (deleteVertexStep_sorted hs v) ?_
    rw [deleteVertexStep_vertices hs.2.2.2 v]
    by_cases hu : u = v <;> simp [hu, h]

theorem delete_vertices_internal_vertices_none {s : Datastore} (hs : s.sorted)
    {ids : List Uuid} {v : Uuid} (h : v ∈ ids) :
    mlookup (delete_vertices_internal s ids).vertices v = none := by
  induction ids generalizing s with
  | nil => simp at h
  | cons w rest ih =>
    by_cases hw : v = w
    · subst hw
      refine delete_vertices_internal_vertices_mono (deleteVertexStep_sorted hs v) rest ?_
      rw [deleteVertexStep_vertices hs.2.2.2 v, if_pos rfl]
    · rcases List.mem_cons.mp h with he | ht
      · exact absurd he hw
      · exact ih (deleteVertexStep_sorted hs w) ht

theorem isSome_mlookup_minsert {K V : Type} [LinearOrder K]
    {l : List (K × V)} {u : K} (k : K) (v : V)
    (h : (mlookup l u).isSome) : (mlookup (minsert k v l) u).isSome := by
  by_cases hu : u = k
  · subst hu
    rw [mlookup_minsert_self]
    rfl
  · rw [mlookup_minsert_ne l v hu]
    exact h

/-! ## Every transaction operation preserves sortedness and referential
consistency -/

theorem create_vertex_inv {s : Datastore} (hs : s.sorted) (hc : consistent s)
    (v : Vertex) : (create_vertex s v).1.sorted ∧ consistent (create_vertex s v).1 := by
  rw [create_vertex]
  cases hl : mlookup s.vertices v.id with
  | some t => exact ⟨hs, hc⟩
  | none =>
    refine ⟨⟨hs.1, hs.2.1, hs.2.2.1, msorted_minsert hs.2.2.2 v.id v.t⟩, ?_, ?_, ?_⟩
    · intro p hp
      have := hc.1 p hp
      exact ⟨isSome_mlookup_minsert v.id v.t this.1, isSome_mlookup_minsert v.id v.t this.2⟩
    · intro p hp
      exact isSome_mlookup_minsert v.id v.t (hc.2.1 p hp)
    · intro p hp
      exact hc.2.2 p hp

theorem create_edge_inv {s : Datastore} (hs : s.sorted) (hc : consistent s)
    (k : EdgeKey) (now : DateTimeU) :
    (create_edge s k now).1.sorted ∧ consistent (create_edge s k now).1 := by
  rw [create_edge]
  by_cases h : mlookup s.vertices k.outbound_id = none ∨
      mlookup s.vertices k.inbound_id = none
  · rw [if_pos h]
    exact ⟨hs, hc⟩
  · rw [if_neg h]
    push_neg at h
    refine ⟨⟨hs.1, msorted_minsert hs.2.1 k now, hs.2.2.1, hs.2.2.2⟩, ?_, ?_, ?_⟩
    · intro p hp
      rcases mem_minsert hp with rfl | hold
      · exact ⟨Option.isSome_iff_ne_none.mpr h.1, Option.isSome_iff_ne_none.mpr h.2⟩
      · exact hc.1 p hold
    · intro p hp
      exact hc.2.1 p hp
    · intro p hp
      exact isSome_mlookup_minsert k now (hc.2.2 p hp)

theorem delete_vertices_inv {s : Datastore} (hs : s.sorted) (hc : consistent s)
    (q : VertexQuery) :
    (delete_vertices s q).sorted ∧ consistent (delete_vertices s q) :=
  ⟨delete_vertices_internal_sorted hs _, delete_vertices_internal_consistent hs hc _⟩

theorem delete_edges_inv {s : Datastore} (hs : s.sorted) (hc : consistent s)
    (q : EdgeQuery) :
    (delete_edges s q).sorted ∧ consistent (delete_edges s q) :=
  ⟨delete_edges_internal_sorted hs _, delete_edges_internal_consistent hs hc _⟩

theorem set_vertex_properties_inv {s : Datastore} (hs : s.sorted)
    (hc : consistent s) (q : VertexQuery) (name : Str) (value : JsonValue) :
    (set_vertex_properties s q name value).sorted ∧
      consistent (set_vertex_properties s q name value) := by
  rw [set_vertex_properties]
  refine ⟨⟨hs.1, hs.2.1, msorted_foldl_minsert hs.2.2.1, hs.2.2.2⟩, ?_, ?_, ?_⟩
  · intro p hp
    exact hc.1 p hp
  · intro p hp
    rcases mem_foldl_minsert hp with hold | ⟨x, hx, hfx⟩
    · exact hc.2.1 p hold
    · have := get_vertex_values_mem hs.2.2.2 hx
      rw [hfx]
      show (mlookup s.vertices (⟨x.1, name⟩ : VPKey).id).isSome
      rw [show (⟨x.1, name⟩ : VPKey).id = x.1 from rfl, this]
      rfl
  · intro p hp
    exact hc.2.2 p hp

theorem delete_vertex_properties_inv {s : Datastore} (hs : s.sorted)
    (hc : consistent s) (q : VertexQuery) (name : Str) :
    (delete_vertex_properties s q name).sorted ∧
      consistent (delete_vertex_properties s q name) := by
  rw [delete_vertex_properties]
  refine ⟨⟨hs.1, hs.2.1, msorted_foldl_merase hs.2.2.1, hs.2.2.2⟩, ?_, ?_, ?_⟩
  · intro p hp
    exact hc.1 p hp
  · intro p hp
    exact hc.2.1 p (mem_foldl_merase hp)
  · intro p hp
    exact hc.2.2 p hp

theorem set_edge_properties_inv {s : Datastore} (hs : s.sorted)
    (hc : consistent s) (q : EdgeQuery) (name : Str) (value : JsonValue) :
    (set_edge_properties s q name value).sorted ∧
      consistent (set_edge_properties s q name value) := by
  rw [set_edge_properties]
  refine ⟨⟨msorted_foldl_minsert hs.1, hs.2.1, hs.2.2.1, hs.2.2.2⟩, ?_, ?_, ?_⟩
  · intro p hp
    exact hc.1 p hp
  · intro p hp
    exact hc.2.1 p hp
  · intro p hp
    rcases mem_foldl_minsert hp with hold | ⟨x, hx, hfx⟩
    · exact hc.2.2 p hold
    · have := get_edge_values_mem hs.2.1 hx
      rw [hfx]
      show (mlookup s.edges (⟨x.1, name⟩ : EPKey).key).isSome
      rw [show (⟨x.1, name⟩ : EPKey).key = x.1 from rfl, this]
      rfl

theorem delete_edge_properties_inv {s : Datastore} (hs : s.sorted)
    (hc : consistent s) (q : EdgeQuery) (name : Str) :
    (delete_edge_properties s q name).sorted ∧
      consistent (delete_edge_properties s q name) := by
  rw [delete_edge_properties]
  refine ⟨⟨msorted_foldl_merase hs.1, hs.2.1, hs.2.2.1, hs.2.2.2⟩, ?_, ?_, ?_⟩
  · intro p hp
    exact hc.1 p hp
  · intro p hp
    exact hc.2.1 p hp
  · intro p hp
    exact hc.2.2 p (mem_foldl_merase hp)

theorem step_preserves_inv {s s' : Datastore} (h : Step s s')
    (hs : s.sorted) (hc : consistent s) : s'.sorted ∧ consistent s' := by
  cases h with
  | create_vertex v => exact create_vertex_inv hs hc v
  | create_edge k now => exact create_edge_inv hs hc k now
  | delete_vertices q => exact delete_vertices_inv hs hc q
  | delete_edges q => exact delete_edges_inv hs hc q
  | set_vertex_properties q name value => exact set_vertex_properties_inv hs hc q name value
  | delete_vertex_properties q name => exact delete_vertex_properties_inv hs hc q name
  | set_edge_properties q name value => exact set_edge_properties_inv hs hc q name value
  | delete_edge_properties q name => exact delete_edge_properties_inv hs hc q name

theorem reachable_inv {s : Datastore} (h : Reachable s) :
    s.sorted ∧ consistent s := by
  induction h with
  | refl => exact ⟨by decide, by decide⟩
  | tail hab hbc ih => exact step_preserves_inv hbc ih.1 ih.2

/-- C2 (referential consistency): every datastore state reachable from a
fresh datastore by transaction operations is referentially consistent —
edge keys name present vertices, vertex-property keys name present
vertices, edge-property keys name present edges.  In particular, after
`delete_vertices(q)` every deleted id is gone from the vertex map, no
edge key naming a deleted id as either endpoint remains, and no
vertex-property of a deleted id remains — so edge or property queries
against the deleted ids find nothing. -/
theorem c2_referential_consistency :
    (∀ s : Datastore, Reachable s → consistent s) ∧
    (∀ (s : Datastore) (q : VertexQuery), Reachable s →
      ∀ id ∈ (get_vertex_values_by_query s q).map (fun p => p.1),
        mlookup (delete_vertices s q).vertices id = none ∧
        (∀ k : EdgeKey, k.outbound_id = id ∨ k.inbound_id = id →
          mlookup (delete_vertices s q).edges k = none) ∧
        (∀ name : Str,
          mlookup (delete_vertices s q).vertex_properties ⟨id, name⟩ = none)) := by
  constructor
  · intro s h
    exact (reachable_inv h).2
  · intro s q h id hid
    have hinv := reachable_inv h
    have h' : Reachable (delete_vertices s q) :=
      Relation.ReflTransGen.tail h (Step.delete_vertices s q)
    have hinv' := reachable_inv h'
    have hvnone : mlookup (delete_vertices s q).vertices id = none :=
      delete_vertices_internal_vertices_none hinv.1 hid
    refine ⟨hvnone, ?_, ?_⟩
    · intro k hk
      cases hl : mlookup (delete_vertices s q).edges k with
      | none => rfl
      | some ts =>
        exfalso
        have hends := hinv'.2.1 (k, ts) (mlookup_mem hl)
        rcases hk with hk | hk
        · rw [show (k, ts).1 = k from rfl, hk, hvnone] at hends
          exact (by simpa using hends.1)
        · rw [show (k, ts).1 = k from rfl, hk, hvnone] at hends
          exact (by simpa using hends.2)
    · intro name
      cases hl : mlookup (delete_vertices s q).vertex_properties ⟨id, name⟩ with
      | none => rfl
      | some w =>
        exfalso
        have hown := hinv'.2.2.1 (⟨id, name⟩, w) (mlookup_mem hl)
        rw [show ((⟨id, name⟩ : VPKey), w).1.id = id from rfl, hvnone] at hown
        exact (by simp at hown)

/-- A concrete reachable state for the C2 witness: create vertices `1`
and `2`, then the edge `(1,"x",2)`. -/
def c2Demo : Datastore :=
  (create_edge
    (create_vertex (create_vertex Datastore.empty ⟨1, ['u']⟩).1 ⟨2, ['u']⟩).1
    ⟨1, ['x'], 2⟩ ⟨0, 0⟩).1

theorem c2Demo_reachable : Reachable c2Demo :=
  Relation.ReflTransGen.tail
    (Relation.ReflTransGen.tail
      (Relation.ReflTransGen.tail Relation.ReflTransGen.refl
        (Step.create_vertex Datastore.empty ⟨1, ['u']⟩))
      (Step.create_vertex _ ⟨2, ['u']⟩))
    (Step.create_edge _ ⟨1, ['x'], 2⟩ ⟨0, 0⟩)

/-- Witness for C2: the reachable three-step state `c2Demo` is
consistent, and deleting vertex `1` from it removes the vertex, the edge
`(1,"x",2)`, and any would-be property of vertex `1`. -/
theorem c2_referential_consistency_witness :
    consistent c2Demo ∧
    mlookup (delete_vertices c2Demo (.vertices [1])).vertices 1 = none ∧
    mlookup (delete_vertices c2Demo (.vertices [1])).edges ⟨1, ['x'], 2⟩ = none ∧
    mlookup (delete_vertices c2Demo (.vertices [1])).vertex_properties
      ⟨1, ['p']⟩ = none := by
  have h2 := c2_referential_consistency.2 c2Demo (.vertices [1]) c2Demo_reachable
    1 (by decide)
  exact ⟨c2_referential_consistency.1 c2Demo c2Demo_reachable,
    h2.1, h2.2.1 ⟨1, ['x'], 2⟩ (Or.inl rfl), h2.2.2 ['p']⟩

/-! ## The wire codec (`src/bin/src/common/converters.rs`)

The Cap'n Proto messages are modelled at field level: `Data` fields
holding a 16-byte UUID are modelled by the `Uuid` itself
(`Uuid::from_slice ∘ Uuid::as_bytes = Ok` is a property of the external
`uuid` crate), `Text` fields by `Str`, `UInt64` fields by `Nat` (the
encoder's `as u64` casts are modelled explicitly), unions by inductives
(the decoder's unknown-tag failure cannot arise on a well-formed
message), and the `Text` field holding `value.to_string()` by the
`JsonValue` itself (`serde_json::from_str ∘ to_string = Ok` is a
property of the external `serde_json` crate).  Decoders return `Option`,
`none` standing for `capnp::Error`. -/

/-- Wire `Vertex` message. -/
structure WVertex where
  id : Uuid
  t : Str
deriving DecidableEq

/-- Wire `EdgeKey` message. -/
structure WEdgeKey where
  outbound_id : Uuid
  t : Str
  inbound_id : Uuid
deriving DecidableEq

/-- Wire `Edge` message; `createdDatetime` is a `UInt64` of seconds. -/
structure WEdge where
  key : WEdgeKey
  created_datetime : Nat
deriving DecidableEq

/-- Wire `VertexProperty` message. -/
structure WVertexProperty where
  id : Uuid
  value : JsonValue
deriving DecidableEq

/-- Wire `EdgeProperty` message. -/
structure WEdgeProperty where
  key : WEdgeKey
  value : JsonValue
deriving DecidableEq

/-- Wire `EdgeDirection` enum. -/
inductive WEdgeDirection where
  | outbound
  | inbound
deriving DecidableEq

mutual
/-- Wire `VertexQuery` union.  `start_id` is a `Data` field whose empty
default encodes `None` and whose 16-byte contents encode `Some`. -/
inductive WVertexQuery where
  | all (start_id : Option Uuid) (limit : Nat)
  | vertices (ids : List Uuid)
  | pipe (edge_query : WEdgeQuery) (converter : WEdgeDirection) (limit : Nat)
deriving DecidableEq

/-- Wire `EdgeQuery` union.  `type_filter` is a `Text` field with the
empty string as the no-filter sentinel; `high_filter`/`low_filter` are
`UInt64` nanosecond timestamps with `0` as the `None` sentinel. -/
inductive WEdgeQuery where
  | edges (keys : List WEdgeKey)
  | pipe (vertex_query : WVertexQuery) (converter : WEdgeDirection)
      (type_filter : Str) (high_filter : Nat) (low_filter : Nat) (limit : Nat)
deriving DecidableEq
end

/-- `models::BulkInsertItem` (the native four-way union). -/
inductive BulkInsertItem where
  | vertex (vertex : Vertex)
  | edge (key : EdgeKey)
  | vertexProperty (id : Uuid) (name : Str) (value : JsonValue)
  | edgeProperty (key : EdgeKey) (name : Str) (value : JsonValue)
deriving DecidableEq

/-- Wire `BulkInsertItem` union. -/
inductive WBulkInsertItem where
  | vertex (vertex : WVertex)
  | edge (key : WEdgeKey)
  | vertexProperty (id : Uuid) (name : Str) (value : JsonValue)
  | edgeProperty (key : WEdgeKey) (name : Str) (value : JsonValue)
deriving DecidableEq

/-- Rust `as u64` on an `i64`-valued expression. -/
def u64OfInt (i : Int) : Nat := (i % 18446744073709551616).toNat

/-- Rust `as i64` on a `u64` value. -/
def i64OfNat (n : Nat) : Int :=
  if n < 9223372036854775808 then (n : Int) else (n : Int) - 18446744073709551616

/-- Modelled from the spec: `Type::new` — the constructor of
`models::Type`, whose source (models/types.rs) is not among the given
files.  §3: a type is "a short non-empty string"; the empty string is
reserved as a range sentinel, so validation rejects it.  Only
non-emptiness is load-bearing here (it is what makes the empty-string
`type_filter` sentinel unambiguous). -/
def TypeNew (s : Str) : Option Str := if s = [] then none else some s

/-- `converters::from_vertex`. -/
def from_vertex (v : Vertex) : WVertex := ⟨v.id, v.t⟩

/-- `converters::to_vertex`. -/
def to_vertex (w : WVertex) : Option Vertex :=
  (TypeNew w.t).map (fun t => ⟨w.id, t⟩)

/-- `converters::from_edge_key`. -/
def from_edge_key (k : EdgeKey) : WEdgeKey := ⟨k.outbound_id, k.t, k.inbound_id⟩

/-- `converters::to_edge_key`. -/
def to_edge_key (w : WEdgeKey) : Option EdgeKey :=
  (TypeNew w.t).map (fun t => ⟨w.outbound_id, t, w.inbound_id⟩)

/-- `converters::from_edge`:
`builder.set_created_datetime(edge.created_datetime.timestamp() as u64)` —
seconds only (`timestamp()` is the `sec` field). -/
def from_edge (e : Edge) : WEdge :=
  ⟨from_edge_key e.key, u64OfInt e.created_datetime.sec⟩

/-- `converters::to_edge`:
`Utc.timestamp(reader.get_created_datetime() as i64, 0)` — the
sub-second component is reconstructed as zero. -/
def to_edge (w : WEdge) : Option Edge :=
  (to_edge_key w.key).map (fun k => ⟨k, ⟨i64OfNat w.created_datetime, 0⟩⟩)

/-- `converters::from_vertex_property`. -/
def from_vertex_property (p : VertexProperty) : WVertexProperty := ⟨p.id, p.value⟩

/-- `converters::to_vertex_property`. -/
def to_vertex_property (w : WVertexProperty) : Option VertexProperty :=
  some ⟨w.id, w.value⟩

/-- `converters::from_edge_property`. -/
def from_edge_property (p : EdgeProperty) : WEdgeProperty := ⟨from_edge_key p.key, p.value⟩

/-- `converters::to_edge_property`. -/
def to_edge_property (w : WEdgeProperty) : Option EdgeProperty :=
  (to_edge_key w.key).map (fun k => ⟨k, w.value⟩)

/-- `converters::from_edge_direction`. -/
def from_edge_direction : EdgeDirection → WEdgeDirection
  | .outbound => .outbound
  | .inbound => .inbound

/-- `converters::to_edge_direction`. -/
def to_edge_direction : WEdgeDirection → EdgeDirection
  | .outbound => .outbound
  | .inbound => .inbound

/-- `converters::to_optional_datetime`: `0` is the `None` sentinel;
otherwise split a `u64` nanosecond timestamp into seconds and
nanoseconds (`Utc.timestamp(secs as i64, nanos as u32)`). -/
def to_optional_datetime (timestamp : Nat) : Option DateTimeU :=
  if timestamp = 0 then none
  else some ⟨i64OfNat (timestamp / 1000000000), timestamp % 1000000000⟩

/-- The `if let Some(type_filter) = type_filter { builder.set_type_filter(..) }`
pattern: an unset `Text` field reads back as the empty string. -/
def encOptType : Option Str → Str
  | some t => t
  | none => []

/-- The `if let Some(filter) = filter {
builder.set_*_filter(filter.timestamp_nanos() as u64) }` pattern: an
unset `UInt64` field reads back as `0`. -/
def encOptFilter : Option DateTimeU → Nat
  | some d => u64OfInt d.timestampNanos
  | none => 0

/-- The `match params.get_type_filter()? { "" => None, value =>
Some(Type::new(value)?) }` step of `to_edge_query`. -/
def decTypeFilter (wtf : Str) : Option (Option Str) :=
  if wtf = [] then some none else (TypeNew wtf).map some

mutual
/-- `converters::from_vertex_query`. -/
def from_vertex_query : VertexQuery → WVertexQuery
  | .all start_id limit => .all start_id limit
  | .vertices ids => .vertices ids
  | .pipe eq conv limit =>
    .pipe (from_edge_query eq) (from_edge_direction conv) limit

/-- `converters::from_edge_query`.  `type_filter` defaults to the empty
string when `None`; the timestamp filters encode
`timestamp_nanos() as u64` when `Some` and default to `0` when `None`. -/
def from_edge_query : EdgeQuery → WEdgeQuery
  | .edges keys => .edges (keys.map from_edge_key)
  | .pipe vq conv tf hf lf limit =>
    .pipe (from_vertex_query vq) (from_edge_direction conv)
      (encOptType tf) (encOptFilter hf) (encOptFilter lf) limit
end

/-- The `collect()` over decoded edge keys in the `Edges` arm of
`to_edge_query`. -/
def collect_edge_keys : List WEdgeKey → Option (List EdgeKey)
  | [] => some []
  | w :: rest =>
    match to_edge_key w, collect_edge_keys rest with
    | some k, some ks => some (k :: ks)
    | _, _ => none

mutual
/-- `converters::to_vertex_query`. -/
def to_vertex_query : WVertexQuery → Option VertexQuery
  | .all start_id limit => some (.all start_id limit)
  | .vertices ids => some (.vertices ids)
  | .pipe weq conv limit =>
    match to_edge_query weq with
    | some eq => some (.pipe eq (to_edge_direction conv) limit)
    | none => none

/-- `converters::to_edge_query`:  matches `""` to `None`, otherwise
validates through `Type::new`; decodes the timestamp filters through
`to_optional_datetime`. -/
def to_edge_query : WEdgeQuery → Option EdgeQuery
  | .edges wkeys =>
    match collect_edge_keys wkeys with
    | some keys => some (.edges keys)
    | none => none
  | .pipe wvq conv wtf whf wlf limit =>
    match to_vertex_query wvq with
    | some vq =>
      match decTypeFilter wtf with
      | some tf =>
        some (.pipe vq (to_edge_direction conv) tf
          (to_optional_datetime whf) (to_optional_datetime wlf) limit)
      | none => none
    | none => none
end

/-- `converters::from_bulk_insert_items`, per item. -/
def from_bulk_insert_item : BulkInsertItem → WBulkInsertItem
  | .vertex v => .vertex (from_vertex v)
  | .edge k => .edge (from_edge_key k)
  | .vertexProperty id name value => .vertexProperty id name value
  | .edgeProperty k name value => .edgeProperty (from_edge_key k) name value

/-- `converters::to_bulk_insert_items`, per item. -/
def to_bulk_insert_item : WBulkInsertItem → Option BulkInsertItem
  | .vertex w => (to_vertex w).map .vertex
  | .edge w => (to_edge_key w).map .edge
  | .vertexProperty id name value => some (.vertexProperty id name value)
  | .edgeProperty w name value =>
    (to_edge_key w).map (fun k => .edgeProperty k name value)

/-! ### Values the codec can faithfully carry

`wf` picks out the model values on which `decode ∘ encode` is the
identity: types constructible by `Type::new` (non-empty), edge
timestamps that are whole seconds in `i64` range (the wire carries
seconds only), and timestamp filters whose nanosecond timestamp is
positive (the `0` sentinel means `None`) and below `2^64` (the `as u64`
cast wraps). -/

def validType (t : Str) : Bool := decide (t ≠ [])

def DateTimeU.edgeTsWf (d : DateTimeU) : Bool :=
  decide (d.nsec = 0) && decide (-9223372036854775808 ≤ d.sec) &&
    decide (d.sec < 9223372036854775808)

def DateTimeU.filterTsWf (d : DateTimeU) : Bool :=
  decide (0 < d.timestampNanos) && decide (d.timestampNanos < 18446744073709551616) &&
    decide (d.nsec < 1000000000)

def Vertex.wf (v : Vertex) : Bool := validType v.t

def EdgeKey.wf (k : EdgeKey) : Bool := validType k.t

def Edge.wf (e : Edge) : Bool := e.key.wf && e.created_datetime.edgeTsWf

def EdgeProperty.wf (p : EdgeProperty) : Bool := p.key.wf

def optTypeWf : Option Str → Bool
  | some t => validType t
  | none => true

def optFilterWf : Option DateTimeU → Bool
  | some d => d.filterTsWf
  | none => true

mutual
def VertexQuery.wf : VertexQuery → Bool
  | .all _ _ => true
  | .vertices _ => true
  | .pipe eq _ _ => eq.wf

def EdgeQuery.wf : EdgeQuery → Bool
  | .edges keys => keys.all EdgeKey.wf
  | .pipe vq _ tf hf lf _ =>
    vq.wf && optTypeWf tf && optFilterWf hf && optFilterWf lf
end

def BulkInsertItem.wf : BulkInsertItem → Bool
  | .vertex v => v.wf
  | .edge k => k.wf
  | .vertexProperty _ _ _ => true
  | .edgeProperty k _ _ => k.wf

/-! ### Round-trip lemmas -/

theorem TypeNew_of_valid {t : Str} (h : validType t = true) : TypeNew t = some t := by
  rw [validType, decide_eq_true_eq] at h
  rw [TypeNew, if_neg h]

theorem to_from_vertex {v : Vertex} (h : v.wf = true) :
    to_vertex (from_vertex v) = some v := by
  rw [from_vertex, to_vertex]
  show (TypeNew v.t).map _ = _
  rw [TypeNew_of_valid h, Option.map_some']

theorem to_from_edge_key {k : EdgeKey} (h : k.wf = true) :
    to_edge_key (from_edge_key k) = some k := by
  rw [from_edge_key, to_edge_key]
  show (TypeNew k.t).map _ = _
  rw [TypeNew_of_valid h, Option.map_some']

theorem i64OfNat_u64OfInt {i : Int} (h1 : -9223372036854775808 ≤ i)
    (h2 : i < 9223372036854775808) : i64OfNat (u64OfInt i) = i := by
  rw [u64OfInt, i64OfNat]
  split <;> omega

theorem to_from_edge {e : Edge} (h : e.wf = true) :
    to_edge (from_edge e) = some e := by
  obtain ⟨k, ⟨sec, nsec⟩⟩ := e
  rw [Edge.wf, Bool.and_eq_true] at h
  have hts := h.2
  rw [DateTimeU.edgeTsWf, Bool.and_eq_true, Bool.and_eq_true] at hts
  simp only [decide_eq_true_eq] at hts
  rw [from_edge, to_edge]
  show (to_edge_key (from_edge_key k)).map _ = _
  rw [to_from_edge_key h.1, Option.map_some', Option.some.injEq]
  show Edge.mk k ⟨i64OfNat (u64OfInt sec), 0⟩ = Edge.mk k ⟨sec, nsec⟩
  rw [i64OfNat_u64OfInt hts.1.2 hts.2, hts.1.1]

theorem to_from_edge_property {p : EdgeProperty} (h : p.wf = true) :
    to_edge_property (from_edge_property p) = some p := by
  rw [from_edge_property, to_edge_property]
  show (to_edge_key (from_edge_key p.key)).map _ = _
  rw [to_from_edge_key h, Option.map_some']

theorem to_from_edge_direction (d : EdgeDirection) :
    to_edge_direction (from_edge_direction d) = d := by
  cases d <;> rfl

theorem to_optional_datetime_zero : to_optional_datetime 0 = none := rfl

theorem to_from_filter {d : DateTimeU} (h : d.filterTsWf = true) :
    to_optional_datetime (u64OfInt d.timestampNanos) = some d := by
  obtain ⟨sec, nsec⟩ := d
  rw [DateTimeU.filterTsWf, Bool.and_eq_true, Bool.and_eq_true] at h
  simp only [decide_eq_true_eq, DateTimeU.timestampNanos] at h
  obtain ⟨⟨h1, h2⟩, h3⟩ := h
  simp only [DateTimeU.timestampNanos, to_optional_datetime, u64OfInt, i64OfNat]
  rw [if_neg (by omega)]
  simp only [Option.some.injEq, DateTimeU.mk.injEq]
  constructor
  · split <;> omega
  · omega

theorem collect_from_edge_keys {keys : List EdgeKey}
    (h : keys.all EdgeKey.wf = true) :
    collect_edge_keys (keys.map from_edge_key) = some keys := by
  induction keys with
  | nil => rfl
  | cons k rest ih =>
    rw [List.all_cons, Bool.and_eq_true] at h
    rw [List.map_cons, collect_edge_keys, to_from_edge_key h.1, ih h.2]

theorem decTypeFilter_encOptType {tf : Option Str} (h : optTypeWf tf = true) :
    decTypeFilter (encOptType tf) = some tf := by
  cases tf with
  | none => rfl
  | some t =>
    have ht : t ≠ [] := by
      rw [optTypeWf, validType, decide_eq_true_eq] at h
      exact h
    rw [encOptType, decTypeFilter, if_neg ht, TypeNew_of_valid (by
      rw [validType, decide_eq_true_eq]
      exact ht), Option.map_some']

theorem to_optional_datetime_encOptFilter {f : Option DateTimeU}
    (h : optFilterWf f = true) : to_optional_datetime (encOptFilter f) = f := by
  cases f with
  | none => rfl
  | some d => exact to_from_filter h

mutual
theorem to_from_vertex_query :
    ∀ q : VertexQuery, q.wf = true → to_vertex_query (from_vertex_query q) = some q
  | .all start_id limit, _ => rfl
  | .vertices ids, _ => rfl
  | .pipe eq conv limit, h => by
    have heq := to_from_edge_query eq (show eq.wf = true from h)
    rw [from_vertex_query, to_vertex_query, heq, to_from_edge_direction]

theorem to_from_edge_query :
    ∀ q : EdgeQuery, q.wf = true → to_edge_query (from_edge_query q) = some q
  | .edges keys, h => by
    rw [from_edge_query, to_edge_query,
      collect_from_edge_keys (show keys.all EdgeKey.wf = true from h)]
  | .pipe vq conv tf hf lf limit, h => by
    have h' : (vq.wf && optTypeWf tf && optFilterWf hf && optFilterWf lf) = true := h
    rw [Bool.and_eq_true, Bool.and_eq_true, Bool.and_eq_true] at h'
    obtain ⟨⟨⟨hvq, htf⟩, hhf⟩, hlf⟩ := h'
    have hv := to_from_vertex_query vq hvq
    rw [from_edge_query, to_edge_query, hv, decTypeFilter_encOptType htf,
      to_optional_datetime_encOptFilter hhf, to_optional_datetime_encOptFilter hlf,
      to_from_edge_direction]
end

theorem to_from_bulk_insert_item {item : BulkInsertItem} (h : item.wf = true) :
    to_bulk_insert_item (from_bulk_insert_item item) = some item := by
  cases item with
  | vertex v =>
    rw [from_bulk_insert_item, to_bulk_insert_item,
      to_from_vertex (show v.wf = true from h), Option.map_some']
  | edge k =>
    rw [from_bulk_insert_item, to_bulk_insert_item,
      to_from_edge_key (show k.wf = true from h), Option.map_some']
  | vertexProperty id name value => rfl
  | edgeProperty k name value =>
    rw [from_bulk_insert_item, to_bulk_insert_item,
      to_from_edge_key (show k.wf = true from h), Option.map_some']

/-- C1, counterexample: the codec round-trip fails as universally
stated.  An `Edge` whose `created_datetime` has a nonzero sub-second
(nanosecond) component does not survive `decode ∘ encode` — the wire
carries seconds only and the decoder reconstructs nanoseconds as `0` —
and an `EdgeQuery::Pipe` with `high_filter = Some(epoch)` decodes with
`high_filter = None`, because the filter encoding uses `0` nanoseconds
as the `None` sentinel. -/
theorem c1_roundtrip_counterexample :
    to_edge (from_edge ⟨⟨1, ['x'], 2⟩, ⟨0, 1⟩⟩) ≠ some ⟨⟨1, ['x'], 2⟩, ⟨0, 1⟩⟩ ∧
    to_edge_query (from_edge_query
        (.pipe (.vertices []) .outbound none (some ⟨0, 0⟩) none 1)) ≠
      some (.pipe (.vertices []) .outbound none (some ⟨0, 0⟩) none 1) := by
  constructor
  · intro hcontra
    simp only [from_edge, from_edge_key, to_edge, to_edge_key, TypeNew, u64OfInt,
      i64OfNat] at hcontra
    revert hcontra
    decide
  · intro hcontra
    simp only [from_edge_query, from_vertex_query, to_edge_query, to_vertex_query,
      encOptType, encOptFilter, decTypeFilter, to_optional_datetime] at hcontra
    revert hcontra
    decide

/-- C1, amended: `decode(encode(x)) = x` holds for every model value in
`{Vertex, Edge, EdgeKey, VertexProperty, EdgeProperty, VertexQuery,
EdgeQuery, BulkInsertItem}` whose types are constructible by
`Type::new` (non-empty), whose `Edge` timestamps are whole seconds in
`i64` range (the sub-second component must be zero — it is truncated on
the wire), and whose `high_filter`/`low_filter` values, when present,
have a nanosecond timestamp that is positive (so not `Some(epoch)`,
whose encoding `0` is the `None` sentinel) and below `2^64`. -/
theorem c1_roundtrip_amended :
    (∀ v : Vertex, v.wf = true → to_vertex (from_vertex v) = some v) ∧
    (∀ k : EdgeKey, k.wf = true → to_edge_key (from_edge_key k) = some k) ∧
    (∀ e : Edge, e.wf = true → to_edge (from_edge e) = some e) ∧
    (∀ p : VertexProperty, to_vertex_property (from_vertex_property p) = some p) ∧
    (∀ p : EdgeProperty, p.wf = true →
      to_edge_property (from_edge_property p) = some p) ∧
    (∀ q : VertexQuery, q.wf = true →
      to_vertex_query (from_vertex_query q) = some q) ∧
    (∀ q : EdgeQuery, q.wf = true → to_edge_query (from_edge_query q) = some q) ∧
    (∀ item : BulkInsertItem, item.wf = true →
      to_bulk_insert_item (from_bulk_insert_item item) = some item) :=
  ⟨fun _ => to_from_vertex, fun _ => to_from_edge_key, fun _ => to_from_edge,
    fun _ => rfl, fun _ => to_from_edge_property,
    to_from_vertex_query, to_from_edge_query, fun _ => to_from_bulk_insert_item⟩

/-- Witness for C1 (amended): a concrete valid value of each of the
eight model types round-trips. -/
theorem c1_roundtrip_amended_witness :
    to_vertex (from_vertex ⟨1, ['u']⟩) = some ⟨1, ['u']⟩ ∧
    to_edge_key (from_edge_key ⟨1, ['x'], 2⟩) = some ⟨1, ['x'], 2⟩ ∧
    to_edge (from_edge ⟨⟨1, ['x'], 2⟩, ⟨5, 0⟩⟩) = some ⟨⟨1, ['x'], 2⟩, ⟨5, 0⟩⟩ ∧
    to_vertex_property (from_vertex_property ⟨1, ⟨['j']⟩⟩) = some ⟨1, ⟨['j']⟩⟩ ∧
    to_edge_property (from_edge_property ⟨⟨1, ['x'], 2⟩, ⟨['j']⟩⟩) =
      some ⟨⟨1, ['x'], 2⟩, ⟨['j']⟩⟩ ∧
    to_vertex_query (from_vertex_query (.all (some 7) 5)) = some (.all (some 7) 5) ∧
    to_edge_query (from_edge_query
        (.pipe (.vertices [1]) .outbound (some ['x'])
          (some ⟨1, 500⟩) none 9)) =
      some (.pipe (.vertices [1]) .outbound (some ['x']) (some ⟨1, 500⟩) none 9) ∧
    to_bulk_insert_item (from_bulk_insert_item (.vertex ⟨1, ['u']⟩)) =
      some (.vertex ⟨1, ['u']⟩) :=
  ⟨c1_roundtrip_amended.1 _ (by decide),
   c1_roundtrip_amended.2.1 _ (by decide),
   c1_roundtrip_amended.2.2.1 _ (by decide),
   c1_roundtrip_amended.2.2.2.1 _,
   c1_roundtrip_amended.2.2.2.2.1 _ (by decide),
   c1_roundtrip_amended.2.2.2.2.2.1 _ (by decide),
   c1_roundtrip_amended.2.2.2.2.2.2.1 _ (by decide),
   c1_roundtrip_amended.2.2.2.2.2.2.2 _ (by decide)⟩

end IndraDB

